import Mathlib

/-!
# smartstr: a verification development

A shallow embedding of `smartstr.c` (growable C strings with automatic
allocation and resizing) and theorems about it.

Modelling conventions.

* `unsigned long` and `size_t` are 64-bit machine words: arithmetic on them is
  written on `Nat` with an explicit `% ULONG_RANGE`.
* The payload `s` of a buffer is a byte map `Nat → Nat` (index to byte). The block
  obtained from the allocator holds `sizeof(smartstr_t) + allocsz` bytes and
  `sizeof(smartstr_t)` already covers the header and `s[0]`, so the payload
  indices `0 .. allocsz` (inclusive) lie inside the block.
* The C allocator is an input of every call (`Allocator`): whether `calloc`
  returns a block, and whether `realloc` returns one, in which case it also says
  which bytes are found beyond the part of the block that `realloc` preserves.
* A `const char *` C string argument is the list of the bytes of the pointed
  object before its final terminator; `NULL` is `none`.
* A call either returns, or never returns (`Outcome.hang`), or dereferences a
  null pointer (`Outcome.fault`).
-/

namespace Smartstr

/-- Initial size (in bytes) for new smartstr allocations (`SMARTSTR_INITSZ`). -/
def SMARTSTR_INITSZ : Nat := 32

/-- Number of values of an `unsigned long` (and of a `size_t`): `2^64`. -/
def ULONG_RANGE : Nat := 18446744073709551616

/-- The internal struct `struct _smartstr_t`: allocation size, current length,
payload bytes. -/
structure smartstr_t where
  allocsz : Nat
  curlen : Nat
  s : Nat → Nat

/-- What the C allocator answers during one call of the library.
`calloc_ok` tells whether `calloc` returns a block (zero filled).
`realloc_fill = none` means `realloc` returns `NULL`; `some g` means it returns a
block, whose bytes beyond the preserved part are those of `g`. -/
structure Allocator where
  calloc_ok : Bool
  realloc_fill : Option (Nat → Nat)

/-- How a call ends. -/
inductive Outcome (α : Type) where
  | ret (a : α) : Outcome α
  | hang : Outcome α
  | fault : Outcome α

/-- The value a call returned, if it returned. -/
def Outcome.returned {α : Type} : Outcome α → Option α
  | .ret a => some a
  | .hang => none
  | .fault => none

/-- A handle `smartstr_t *`: `none` is `NULL`. -/
abbrev Handle := Option smartstr_t

/-- A handle reference `smartstr_t **`: `none` is `NULL`. -/
abbrev HandleRef := Option Handle

/-! ## libc -/

/-- Byte `i` of the object a C string argument points to: the bytes of the list,
then the terminator. -/
def cstr (l : List Nat) (i : Nat) : Nat := (l ++ [0]).getD i 0

/-- `strlen`: number of bytes before the first zero byte. -/
def strlen (l : List Nat) : Nat := (l.takeWhile (fun c => decide (c ≠ 0))).length

/-- `memcpy(dst + off, src, n)`: the payload `dst` after the copy. -/
def memcpy (dst : Nat → Nat) (off : Nat) (src : Nat → Nat) (n : Nat) : Nat → Nat :=
  fun i => if off ≤ i ∧ i < off + n then src (i - off) else dst i

/-- `memmove(s + off, s, n)`: the payload after moving its first `n` bytes right by
`off`; all source bytes are read before any is overwritten. -/
def memmove (s : Nat → Nat) (off : Nat) (n : Nat) : Nat → Nat :=
  fun i => if off ≤ i ∧ i < off + n then s (i - off) else s i

/-- A store `s[k] = c`. -/
def store (s : Nat → Nat) (k : Nat) (c : Nat) : Nat → Nat :=
  fun i => if i = k then c else s i

/-- `memcmp(a, b, n)`: zero when the first `n` bytes agree, otherwise the
difference of the first two bytes that differ (C fixes only its sign). -/
def memcmp (a b : Nat → Nat) : Nat → Int
  | 0 => 0
  | n + 1 =>
    match memcmp a b n with
    | 0 => (a n : Int) - (b n : Int)
    | d => d

/-! ## smartstr.c -/

/-- First loop of `smartstr_realloc`: `while (newsz > newalloc) newalloc *= 2;`.
The product wraps around at `ULONG_RANGE`. After 64 doublings `newalloc` is zero
and stays so, hence 65 rounds of fuel decide whether the loop ever exits;
`none` means it does not. -/
def growLoop (newsz : Nat) : Nat → Nat → Option Nat
  | 0, _ => none
  | fuel + 1, newalloc =>
    if newsz > newalloc then growLoop newsz fuel (newalloc * 2 % ULONG_RANGE)
    else some newalloc

/-- Second loop of `smartstr_realloc`:
`while (newsz < (newalloc / 2)) newalloc /= 2;`. A word is zero after 64
halvings, so 64 rounds of fuel are never exhausted before the loop exits. -/
def shrinkLoop (newsz : Nat) : Nat → Nat → Nat
  | 0, newalloc => newalloc
  | fuel + 1, newalloc =>
    if newsz < newalloc / 2 then shrinkLoop newsz fuel (newalloc / 2)
    else newalloc

/-- The size `smartstr_realloc` works with after its two adjustments of `newsz`. -/
def clampsz (b : smartstr_t) (newsz : Nat) : Nat :=
  let newsz := if newsz < b.curlen then (b.curlen + 1) % ULONG_RANGE else newsz
  if newsz < SMARTSTR_INITSZ then SMARTSTR_INITSZ else newsz

/-- `smartstr_realloc(s, newsz)` on a present buffer `b = **s`. Returns the
return code and the buffer `**s` after the call. -/
def smartstr_realloc (A : Allocator) (b : smartstr_t) (newsz : Nat) :
    Outcome (Int × smartstr_t) :=
  let newsz := clampsz b newsz
  match growLoop newsz 65 b.allocsz with
  | none => .hang
  | some newalloc =>
    let newalloc := shrinkLoop newsz 64 newalloc
    if newalloc = b.allocsz then .ret (0, b)
    else
      match A.realloc_fill with
      | none => .ret (-1, b)
      | some g =>
        .ret (0, { allocsz := newsz
                   curlen := b.curlen
                   s := fun i => if i ≤ min b.allocsz newsz then b.s i else g i })

/-- `smartstr_new()`: a zero-filled block with `allocsz = SMARTSTR_INITSZ`, or
`NULL`. -/
def smartstr_new (A : Allocator) : Handle :=
  if A.calloc_ok then some { allocsz := SMARTSTR_INITSZ, curlen := 0, s := fun _ => 0 }
  else none

/-- The step `if (*out == NULL) *out = smartstr_new();` shared by the
mutators: the handle after it. -/
def ensure (A : Allocator) (h : Handle) : Handle :=
  match h with
  | some b => some b
  | none => smartstr_new A

/-- `smartstr_adds(out, s)`. Returns the return code and `out` after the call. -/
def smartstr_adds (A : Allocator) (out : HandleRef) (s : Option (List Nat)) :
    Outcome (Int × HandleRef) :=
  match out with
  | none => .ret (-2, none)
  | some h =>
    match ensure A h with
    | none => .ret (-1, some none)
    | some b =>
      match s with
      | none => .ret (0, some (some b))
      | some l =>
        if cstr l 0 = 0 then .ret (0, some (some b))
        else
          let slen := strlen l
          let availspace := (b.allocsz + ULONG_RANGE - b.curlen) % ULONG_RANGE
          let copy := fun (b : smartstr_t) =>
            ({ allocsz := b.allocsz
               curlen := (b.curlen + slen) % ULONG_RANGE
               s := memcpy b.s b.curlen (cstr l) (slen + 1) } : smartstr_t)
          if availspace ≤ slen then
            match smartstr_realloc A b ((b.curlen + slen + 1) % ULONG_RANGE) with
            | .hang => .hang
            | .fault => .fault
            | .ret (r, b1) =>
              if r ≠ 0 then .ret (-1, some (some b1))
              else .ret (0, some (some (copy b1)))
          else .ret (0, some (some (copy b)))

/-- `smartstr_addc(out, c)`. -/
def smartstr_addc (A : Allocator) (out : HandleRef) (c : Nat) :
    Outcome (Int × HandleRef) :=
  match out with
  | none => .ret (-1, none)
  | some h =>
    match ensure A h with
    | none => .ret (-1, some none)
    | some b =>
      let append := fun (b : smartstr_t) =>
        let curlen1 := (b.curlen + 1) % ULONG_RANGE
        ({ allocsz := b.allocsz
           curlen := curlen1
           s := store (store b.s b.curlen c) curlen1 0 } : smartstr_t)
      if (b.curlen + 1) % ULONG_RANGE ≥ b.allocsz then
        match smartstr_realloc A b ((b.curlen + 1) % ULONG_RANGE) with
        | .hang => .hang
        | .fault => .fault
        | .ret (r, b1) =>
          if r ≠ 0 then .ret (-2, some (some b1))
          else .ret (0, some (some (append b1)))
      else .ret (0, some (some (append b)))

/-- `smartstr_addhead(out, head, hlen)`; `head` is the byte map of the object
`head` points to. `out` is dereferenced without a null check. -/
def smartstr_addhead (A : Allocator) (out : HandleRef) (head : Nat → Nat) (hlen : Nat) :
    Outcome (Int × HandleRef) :=
  if hlen = 0 then .ret (0, out)
  else
    match out with
    | none => .fault
    | some h =>
      match ensure A h with
      | none => .ret (-1, some none)
      | some b =>
        match smartstr_realloc A b ((b.curlen + hlen) % ULONG_RANGE) with
        | .hang => .hang
        | .fault => .fault
        | .ret (r, b1) =>
          if r ≠ 0 then .ret (-1, some (some b1))
          else
            .ret (0, some (some
              { allocsz := b1.allocsz
                curlen := (b1.curlen + hlen) % ULONG_RANGE
                s := memcpy (memmove b1.s hlen ((b1.curlen + 1) % ULONG_RANGE)) 0 head hlen }))

/-- `smartstr_truncate(s, maxlen)`. Returns `s` after the call. -/
def smartstr_truncate (A : Allocator) (s : HandleRef) (maxlen : Nat) : Outcome HandleRef :=
  match s with
  | none => .ret none
  | some none => .ret (some none)
  | some (some b) =>
    if maxlen ≥ b.curlen then .ret (some (some b))
    else
      let b0 : smartstr_t :=
        { allocsz := b.allocsz, curlen := maxlen, s := store b.s maxlen 0 }
      match smartstr_realloc A b0 0 with
      | .hang => .hang
      | .fault => .fault
      | .ret (_, b1) => .ret (some (some b1))

/-- `smartstr_cmp(s1, s2)`. -/
def smartstr_cmp (s1 s2 : Handle) : Int :=
  match s1, s2 with
  | none, none => 0
  | none, some _ => 1
  | some _, none => 1
  | some b1, some b2 =>
    if b1.curlen ≠ b2.curlen then 1
    else if b1.curlen = 0 then 0
    else memcmp b1.s b2.s b1.curlen

/-- `smartstr_set(out, init)`. -/
def smartstr_set (A : Allocator) (out : HandleRef) (init : Option (List Nat)) :
    Outcome (Int × HandleRef) :=
  match out with
  | none => .ret (-1, none)
  | some h =>
    match ensure A h with
    | none => .ret (-1, some none)
    | some b =>
      let initlen := match init with
        | none => 0
        | some l => strlen l
      match smartstr_realloc A b ((initlen + 1) % ULONG_RANGE) with
      | .hang => .hang
      | .fault => .fault
      | .ret (r, b1) =>
        if r ≠ 0 then .ret (-1, some (some b1))
        else
          let s1 := match init with
            | none => b1.s
            | some l => memcpy b1.s 0 (cstr l) (initlen + 1)
          .ret (0, some (some { allocsz := b1.allocsz, curlen := initlen, s := s1 }))

/-- `smartstr_cat(s1, s2)`. -/
def smartstr_cat (A : Allocator) (s1 : HandleRef) (s2 : Handle) :
    Outcome (Int × HandleRef) :=
  match s1 with
  | none => .ret (-1, none)
  | some h =>
    match s2 with
    | none => .ret (0, some h)
    | some b2 =>
      match ensure A h with
      | none => .ret (-1, some none)
      | some b =>
        let targetsz := (b.curlen + b2.curlen + 1) % ULONG_RANGE
        match smartstr_realloc A b targetsz with
        | .hang => .hang
        | .fault => .fault
        | .ret (r, b1) =>
          if r ≠ 0 then .ret (-2, some (some b1))
          else
            .ret (0, some (some
              { allocsz := b1.allocsz
                curlen := (b1.curlen + b2.curlen) % ULONG_RANGE
                s := memcpy b1.s b1.curlen b2.s ((b2.curlen + 1) % ULONG_RANGE) }))

/-- `smartstr_len(s)`. -/
def smartstr_len (s : Handle) : Nat :=
  match s with
  | none => 0
  | some b => b.curlen

/-- `smartstr_free(s)`: `*s` is read without a null check on `s`. Returns `s`
after the call. -/
def smartstr_free (s : HandleRef) : Outcome HandleRef :=
  match s with
  | none => .fault
  | some _ => .ret (some none)

/-- `smartstr_ptr(s)`: the payload, or `NULL`. -/
def smartstr_ptr (s : Handle) : Option (Nat → Nat) :=
  match s with
  | none => none
  | some b => some b.s

/-! ## Views used in the statements -/

/-- The live content: the first `curlen` bytes of the payload. -/
def content (b : smartstr_t) : List Nat := (List.range b.curlen).map b.s

/-- The live content of a handle; an absent handle has none. -/
def contentOf (h : Handle) : List Nat :=
  match h with
  | none => []
  | some b => content b

/-- An allocator all of whose answers are blocks; fresh bytes read `0xAA`. -/
def okAlloc : Allocator := { calloc_ok := true, realloc_fill := some (fun _ => 170) }

/-- An allocator that never returns a block. -/
def noAlloc : Allocator := { calloc_ok := false, realloc_fill := none }

/-! ## Buffers used in the statements -/

/-- Sizes the C code handles without wrap-around: the length does not exceed
the allocation size, which is non-zero and below `2^63`. -/
def Valid (b : smartstr_t) : Prop :=
  b.curlen ≤ b.allocsz ∧ 1 ≤ b.allocsz ∧ b.allocsz < ULONG_RANGE / 2

/-- The buffer `smartstr_new` creates when `calloc` succeeds. -/
def fresh : smartstr_t := { allocsz := SMARTSTR_INITSZ, curlen := 0, s := fun _ => 0 }

/-- A buffer holding 31 bytes `x` in a block of 32: `L = 31 < capacity`. -/
def full31 : smartstr_t :=
  { allocsz := 32, curlen := 31, s := fun i => if i < 31 then 120 else 0 }

/-- The bytes of "abc". -/
def abc : List Nat := [97, 98, 99]

/-- The bytes of "Mateusz". -/
def mateusz : List Nat := [77, 97, 116, 101, 117, 115, 122]

/-- A buffer holding "abc" in a block of 32. -/
def bufAbc : smartstr_t := { allocsz := 32, curlen := 3, s := cstr abc }

/-- A buffer holding "Mateusz" in a block of 32. -/
def bufMateusz : smartstr_t := { allocsz := 32, curlen := 7, s := cstr mateusz }

/-! ## Formatted append -/

/-- What the formatting primitive makes of the format and arguments of one
call: the bytes it renders, or a failure, in which case the bytes it leaves in
the region it was given are those of `junk`. -/
inductive Rendered where
  | text (r : List Nat) : Rendered
  | failure (junk : Nat → Nat) : Rendered

/-- `vsnprintf(dst + off, size, fmt, ap)`: the payload after the call and the
value returned. A rendering of `n` bytes writes `min(n, size - 1)` of them and
a terminator when `size > 0`, and reports `n`; a failure reports `-1`. -/
def vsnprintf (dst : Nat → Nat) (off size : Nat) (f : Rendered) : (Nat → Nat) × Int :=
  match f with
  | .text r =>
    if size = 0 then (dst, (r.length : Int))
    else
      let k := min r.length (size - 1)
      (store (memcpy dst off (fun i => r.getD i 0) k) (off + k) 0, (r.length : Int))
  | .failure junk =>
    (fun i => if off ≤ i ∧ i < off + size then junk i else dst i, -1)

/-- The cast `(long)x` of an `unsigned long`. -/
def toLong (x : Nat) : Int :=
  if x < ULONG_RANGE / 2 then (x : Int) else (x : Int) - (ULONG_RANGE : Int)

/-- The cast `(unsigned long)x` of a `long`. -/
def toULong (x : Int) : Nat := (x % (ULONG_RANGE : Int)).toNat

/-- The body of `smartstr_addf` from the label `RETRY` on, for a present
buffer. `fuel` bounds the number of formatting attempts; when it is used up the
model reports `hang`. -/
def addfLoop (A : Allocator) (f : Rendered) : Nat → smartstr_t → Outcome (Int × smartstr_t)
  | 0, _ => .hang
  | fuel + 1, b =>
    let availspace := (b.allocsz + ULONG_RANGE - b.curlen) % ULONG_RANGE
    let w := vsnprintf b.s b.curlen availspace f
    let reslen := w.2
    if reslen ≥ toLong availspace then
      let b1 : smartstr_t :=
        { allocsz := b.allocsz, curlen := b.curlen, s := store w.1 b.curlen 0 }
      match smartstr_realloc A b1 ((b.curlen + toULong reslen + 1) % ULONG_RANGE) with
      | .hang => .hang
      | .fault => .fault
      | .ret (r, b2) =>
        if r = 0 then addfLoop A f fuel b2
        else .ret (-1, b2)
    else if reslen < 0 then
      .ret (-4, { allocsz := b.allocsz, curlen := b.curlen, s := store w.1 b.curlen 0 })
    else
      .ret (0, { allocsz := b.allocsz
                 curlen := (b.curlen + toULong reslen) % ULONG_RANGE
                 s := w.1 })

/-- `smartstr_addf(out, fmt, ...)`, with at most `fuel` formatting attempts. -/
def smartstr_addf (fuel : Nat) (A : Allocator) (out : HandleRef) (f : Rendered) :
    Outcome (Int × HandleRef) :=
  match out with
  | none => .ret (-2, none)
  | some h =>
    match ensure A h with
    | none => .ret (-1, some none)
    | some b =>
      match addfLoop A f fuel b with
      | .hang => .hang
      | .fault => .fault
      | .ret (r, b1) => .ret (r, some (some b1))

/-! ## Further buffers and notions used in the statements -/

/-- An allocator whose `calloc` returns a block and whose `realloc` returns
`NULL`. -/
def noRealloc : Allocator := { calloc_ok := true, realloc_fill := none }

/-- A buffer holding 40 bytes `y` in a block of 64. -/
def buf40 : smartstr_t :=
  { allocsz := 64, curlen := 40, s := fun i => if i < 40 then 121 else 0 }

/-- An empty buffer in a block of 64. -/
def empty64 : smartstr_t := { allocsz := 64, curlen := 0, s := fun _ => 0 }

/-- Being a power of two. -/
def IsPow2 (n : Nat) : Prop := ∃ k, n = 2 ^ k

/-- The number `p` is the smallest power of two that is at least `m`. -/
def IsLeastPow2 (m p : Nat) : Prop :=
  IsPow2 p ∧ m ≤ p ∧ ∀ q, IsPow2 q → m ≤ q → p ≤ q

/-- The value of the local variable `newalloc` of `smartstr_realloc` after its
two loops (`none` when the first loop never exits). -/
def newalloc (b : smartstr_t) (newsz : Nat) : Option Nat :=
  (growLoop (clampsz b newsz) 65 b.allocsz).map (shrinkLoop (clampsz b newsz) 64)

/-- The buffer of `smartstr_addf` after an attempt that did not fit has been
trimmed: the primitive has written into the free space and `s[curlen] = 0` has
been stored. -/
def trimmed (b : smartstr_t) (f : Rendered) : smartstr_t :=
  { allocsz := b.allocsz
    curlen := b.curlen
    s := store (vsnprintf b.s b.curlen
          ((b.allocsz + ULONG_RANGE - b.curlen) % ULONG_RANGE) f).1 b.curlen 0 }

/-- Length of an optional C string argument: `strlen`, or 0 for `NULL`. -/
def optlen (s : Option (List Nat)) : Nat :=
  match s with
  | none => 0
  | some l => strlen l

/-- Buffers reached from a fresh empty buffer by successful public operations
that do not shorten the content (appends of every kind, `smartstr_set` to a
value at least as long as the current one, `smartstr_truncate` to at least the
current length), all lengths staying below `2^63`. -/
inductive Grown : smartstr_t → Prop where
  | fresh : Grown fresh
  | adds (A : Allocator) (b b' : smartstr_t) (s : Option (List Nat)) :
      Grown b → b.curlen + optlen s + 1 < ULONG_RANGE / 2 →
      smartstr_adds A (some (some b)) s = .ret (0, some (some b')) → Grown b'
  | addc (A : Allocator) (b b' : smartstr_t) (c : Nat) :
      Grown b → b.curlen + 2 < ULONG_RANGE / 2 →
      smartstr_addc A (some (some b)) c = .ret (0, some (some b')) → Grown b'
  | addhead (A : Allocator) (b b' : smartstr_t) (head : Nat → Nat) (hlen : Nat) :
      Grown b → b.curlen + hlen + 1 < ULONG_RANGE / 2 →
      smartstr_addhead A (some (some b)) head hlen = .ret (0, some (some b')) → Grown b'
  | addf (fuel : Nat) (A : Allocator) (b b' : smartstr_t) (r : List Nat) :
      Grown b → b.curlen + r.length + 1 < ULONG_RANGE / 2 →
      smartstr_addf fuel A (some (some b)) (.text r) = .ret (0, some (some b')) → Grown b'
  | cat (A : Allocator) (b b' : smartstr_t) (s2 : Handle) :
      Grown b → b.curlen + smartstr_len s2 + 1 < ULONG_RANGE / 2 →
      smartstr_cat A (some (some b)) s2 = .ret (0, some (some b')) → Grown b'
  | set (A : Allocator) (b b' : smartstr_t) (init : Option (List Nat)) :
      Grown b → b.curlen ≤ optlen init → optlen init + 1 < ULONG_RANGE / 2 →
      smartstr_set A (some (some b)) init = .ret (0, some (some b')) → Grown b'
  | truncate (A : Allocator) (b b' : smartstr_t) (maxlen : Nat) :
      Grown b → b.curlen ≤ maxlen →
      smartstr_truncate A (some (some b)) maxlen = .ret (some (some b')) → Grown b'

/-- Sizes of a buffer that wastes nothing: valid sizes, capacity at least 32
and at most `max(32, length + 1)`. -/
def Tight (b : smartstr_t) : Prop :=
  b.curlen ≤ b.allocsz ∧ 32 ≤ b.allocsz ∧ b.allocsz < ULONG_RANGE / 2 ∧
    b.allocsz ≤ max 32 (b.curlen + 1)

/-- The target of a resize in the words of the specification: the request,
clamped up to `length + 1` when it is below the length, and raised to 32. -/
def specTarget (b : smartstr_t) (r : Nat) : Nat :=
  max 32 (if r < b.curlen then b.curlen + 1 else r)

/-! ## The resize algorithm -/

theorem growLoop_spec (newsz : Nat) :
    ∀ fuel a, 1 ≤ a → (newsz ≤ a ∨ newsz ≤ ULONG_RANGE / 2) → newsz ≤ a * 2 ^ fuel →
      ∃ r, growLoop newsz (fuel + 1) a = some r ∧ newsz ≤ r ∧ (newsz ≤ a → r = a) := by
  intro fuel
  induction fuel with
  | zero =>
    intro a _ _ h
    refine ⟨a, ?_, by omega, fun _ => rfl⟩
    have : ¬ newsz > a := by omega
    simp [growLoop, this]
  | succ f ih =>
    intro a ha hn h
    by_cases hgt : newsz > a
    · have hW : newsz ≤ ULONG_RANGE / 2 := by omega
      have hmod : a * 2 % ULONG_RANGE = a * 2 := by
        apply Nat.mod_eq_of_lt
        unfold ULONG_RANGE at *
        omega
      have h2 : newsz ≤ a * 2 * 2 ^ f := by
        rw [pow_succ] at h
        nlinarith
      obtain ⟨r, hr, hle, _⟩ := ih (a * 2) (by omega) (Or.inr hW) h2
      refine ⟨r, ?_, hle, fun h' => by omega⟩
      rw [growLoop, if_pos hgt, hmod]
      exact hr
    · refine ⟨a, ?_, by omega, fun _ => rfl⟩
      rw [growLoop, if_neg hgt]

theorem shrinkLoop_spec (newsz : Nat) :
    ∀ fuel a, newsz ≤ a → newsz ≤ shrinkLoop newsz fuel a ∧ shrinkLoop newsz fuel a ≤ a := by
  intro fuel
  induction fuel with
  | zero => intro a h; simp [shrinkLoop, h]
  | succ f ih =>
    intro a h
    by_cases hlt : newsz < a / 2
    · rw [shrinkLoop, if_pos hlt]
      have := ih (a / 2) (by omega)
      omega
    · rw [shrinkLoop, if_neg hlt]
      omega

theorem smartstr_realloc_spec (A : Allocator) (b : smartstr_t) (newsz : Nat)
    (ha : 1 ≤ b.allocsz)
    (hn : clampsz b newsz ≤ b.allocsz ∨ clampsz b newsz ≤ ULONG_RANGE / 2) :
    ∃ r b1, smartstr_realloc A b newsz = .ret (r, b1) ∧
      (r = 0 ∨ (r = -1 ∧ A.realloc_fill = none ∧ b1 = b)) ∧
      (A.realloc_fill ≠ none → r = 0) ∧
      (r = 0 → clampsz b newsz ≤ b1.allocsz ∧ b1.curlen = b.curlen ∧
        (b1.allocsz = b.allocsz ∨ b1.allocsz = clampsz b newsz) ∧
        ∀ i, i ≤ min b.allocsz b1.allocsz → b1.s i = b.s i) := by
  have hpow : clampsz b newsz ≤ b.allocsz * 2 ^ 64 := by
    rcases hn with h | h
    · nlinarith [Nat.one_le_two_pow (n := 64)]
    · unfold ULONG_RANGE at h
      omega
  obtain ⟨g, hg, hle, _⟩ := growLoop_spec (clampsz b newsz) 64 b.allocsz ha hn hpow
  have hsh := shrinkLoop_spec (clampsz b newsz) 64 g hle
  unfold smartstr_realloc
  simp only [hg]
  by_cases heq : shrinkLoop (clampsz b newsz) 64 g = b.allocsz
  · simp only [heq, if_true]
    refine ⟨0, b, rfl, Or.inl rfl, fun _ => rfl, fun _ => ⟨by omega, rfl, Or.inl rfl, fun _ _ => rfl⟩⟩
  · simp only [heq, if_false]
    cases hf : A.realloc_fill with
    | none =>
      refine ⟨-1, b, rfl, Or.inr ⟨rfl, rfl, rfl⟩, fun h => absurd rfl h, fun h => by omega⟩
    | some fill =>
      refine ⟨0, _, rfl, Or.inl rfl, fun _ => rfl, fun _ => ⟨le_refl _, rfl, Or.inr rfl, ?_⟩⟩
      intro i hi
      simp only at hi ⊢
      rw [if_pos hi]

theorem growLoop_exit (newsz : Nat) :
    ∀ fuel a r, growLoop newsz fuel a = some r → ¬ newsz > r := by
  intro fuel
  induction fuel with
  | zero => intro a r h; simp [growLoop] at h
  | succ f ih =>
    intro a r h
    rw [growLoop] at h
    split_ifs at h with hgt
    · exact ih _ r h
    · cases h
      exact hgt

theorem growLoop_zero (newsz : Nat) (hpos : 0 < newsz) :
    ∀ fuel, growLoop newsz fuel 0 = none := by
  intro fuel
  induction fuel with
  | zero => rfl
  | succ f ih =>
    rw [growLoop, if_pos hpos]
    simpa using ih

theorem growLoop_none_of_wrap (newsz : Nat) :
    ∀ k a, a < ULONG_RANGE → a * 2 ^ k % ULONG_RANGE = 0 →
      growLoop newsz (k + 1) a = none → ∀ fuel, growLoop newsz fuel a = none := by
  intro k
  induction k with
  | zero =>
    intro a ha hz hnone fuel
    have ha0 : a = 0 := by
      rw [pow_zero, Nat.mul_one, Nat.mod_eq_of_lt ha] at hz
      exact hz
    subst ha0
    have hpos : 0 < newsz := by
      by_contra hn
      have : ¬ newsz > 0 := hn
      simp [growLoop, this] at hnone
    exact growLoop_zero newsz hpos fuel
  | succ k ih =>
    intro a ha hz hnone fuel
    rw [growLoop] at hnone
    split_ifs at hnone with hgt
    have hlt : a * 2 % ULONG_RANGE < ULONG_RANGE := Nat.mod_lt _ (by decide)
    have hz2 : a * 2 % ULONG_RANGE * 2 ^ k % ULONG_RANGE = 0 := by
      rw [Nat.mod_mul_mod, Nat.mul_assoc, ← pow_succ']
      exact hz
    have hall := ih (a * 2 % ULONG_RANGE) hlt hz2 hnone
    cases fuel with
    | zero => rfl
    | succ f =>
      rw [growLoop, if_pos hgt]
      exact hall f

/-- The fuel of the first loop is exact: when 65 rounds find no exit, no number
of rounds does, that is the C loop never exits. -/
theorem growLoop_hangs (newsz a : Nat) (ha : a < ULONG_RANGE)
    (h : growLoop newsz 65 a = none) : ∀ fuel, growLoop newsz fuel a = none := by
  apply growLoop_none_of_wrap newsz 64 a ha _ h
  have : a * 2 ^ 64 = a * ULONG_RANGE := rfl
  rw [this]
  exact Nat.mul_mod_left a ULONG_RANGE

theorem shrinkLoop_exit_of_lt (newsz : Nat) :
    ∀ fuel a, a < 2 ^ fuel → ¬ newsz < shrinkLoop newsz fuel a / 2 := by
  intro fuel
  induction fuel with
  | zero =>
    intro a ha
    have : a = 0 := by simpa using ha
    subst this
    simp [shrinkLoop]
  | succ f ih =>
    intro a ha
    rw [shrinkLoop]
    split_ifs with hlt
    · apply ih
      rw [pow_succ] at ha
      omega
    · exact hlt

/-- The fuel of the second loop is never exhausted on a machine word: the value
returned falsifies the loop condition. -/
theorem shrinkLoop_exit (newsz a : Nat) (ha : a < ULONG_RANGE) :
    ¬ newsz < shrinkLoop newsz 64 a / 2 :=
  shrinkLoop_exit_of_lt newsz 64 a ha

/-! ## Auxiliary facts -/

theorem fresh_valid : Valid fresh := by
  unfold Valid fresh SMARTSTR_INITSZ ULONG_RANGE
  simp

theorem ensure_some (A : Allocator) (b : smartstr_t) : ensure A (some b) = some b := rfl

theorem ensure_none_ok (A : Allocator) (h : A.calloc_ok = true) : ensure A none = some fresh := by
  simp [ensure, smartstr_new, h, fresh]

theorem ensure_none_fail (A : Allocator) (h : A.calloc_ok = false) : ensure A none = none := by
  simp [ensure, smartstr_new, h]

theorem strlen_of_nonzero (l : List Nat) (hz : ∀ c ∈ l, c ≠ 0) : strlen l = l.length := by
  unfold strlen
  rw [List.takeWhile_eq_self_iff.mpr]
  intro c hc
  simpa using hz c hc

theorem cstr_zero_of_nonzero (l : List Nat) (hz : ∀ c ∈ l, c ≠ 0) : cstr l 0 = 0 ↔ l = [] := by
  cases l with
  | nil => simp [cstr]
  | cons a t =>
    have := hz a (by simp)
    simp [cstr, this]

theorem map_range_congr {f g : Nat → Nat} {n : Nat} (h : ∀ i, i < n → f i = g i) :
    (List.range n).map f = (List.range n).map g := by
  apply List.map_congr_left
  intro i hi
  exact h i (List.mem_range.mp hi)

theorem map_range_cstr (l : List Nat) : (List.range (l.length + 1)).map (cstr l) = l ++ [0] := by
  apply List.ext_getElem
  · simp
  · intro i h1 h2
    simp [cstr, List.getD_eq_getElem?_getD]
    have : i < (l ++ [0]).length := by simpa using h2
    rw [List.getElem?_eq_getElem this]
    simp

theorem map_range_memcpy (dst src : Nat → Nat) (off n : Nat) :
    (List.range (off + n)).map (memcpy dst off src n)
      = (List.range off).map dst ++ (List.range n).map src := by
  rw [List.range_add, List.map_append, List.map_map]
  congr 1
  · apply map_range_congr
    intro i hi
    simp [memcpy]
    omega
  · apply map_range_congr
    intro i hi
    simp [memcpy, hi]

theorem map_range_memcpy_le (dst src : Nat → Nat) (off n m : Nat) (h : n ≤ m) :
    (List.range (off + n)).map (memcpy dst off src m)
      = (List.range off).map dst ++ (List.range n).map src := by
  rw [List.range_add, List.map_append, List.map_map]
  congr 1
  · apply map_range_congr
    intro i hi
    simp [memcpy]
    omega
  · apply map_range_congr
    intro i hi
    have : i < m := by omega
    simp [memcpy, this]

theorem take_map_range (f : Nat → Nat) (n m : Nat) (h : n ≤ m) :
    ((List.range m).map f).take n = (List.range n).map f := by
  rw [← List.map_take, List.take_range, Nat.min_eq_left h]

theorem memcmp_eq_zero_iff (a b : Nat → Nat) :
    ∀ n, memcmp a b n = 0 ↔ ∀ i, i < n → a i = b i := by
  intro n
  induction n with
  | zero => simp [memcmp]
  | succ n ih =>
    by_cases h0 : memcmp a b n = 0
    · have hstep : memcmp a b (n + 1) = (a n : Int) - (b n : Int) := by
        rw [memcmp, h0]
        rfl
      rw [hstep]
      constructor
      · intro h i hi
        rcases Nat.lt_succ_iff_lt_or_eq.mp hi with hlt | heq
        · exact ih.mp h0 i hlt
        · subst heq; omega
      · intro h
        have := h n (Nat.lt_succ_self n)
        omega
    · have hstep : memcmp a b (n + 1) = memcmp a b n := by
        rw [memcmp]
        split
        · rename_i heq; exact absurd heq h0
        · rfl
      rw [hstep]
      constructor
      · intro h; exact absurd h h0
      · intro h
        exact ih.mpr (fun i hi => h i (Nat.lt_succ_of_lt hi))

theorem adds_present (A : Allocator) (b : smartstr_t) (l : List Nat)
    (hv : Valid b) (hz : ∀ c ∈ l, c ≠ 0) (hne : l ≠ [])
    (hsz : b.curlen + l.length + 1 ≤ ULONG_RANGE / 2) :
    ∃ r b', smartstr_adds A (some (some b)) (some l) = .ret (r, some (some b')) ∧
      (A.realloc_fill ≠ none → r = 0) ∧
      (r = 0 → b'.curlen = b.curlen + l.length ∧ b'.curlen < b'.allocsz ∧
        (List.range (b'.curlen + 1)).map b'.s = content b ++ l ++ [0]) := by
  obtain ⟨hcur, hone, hmax⟩ := hv
  have hW : ULONG_RANGE = 18446744073709551616 := rfl
  have hc0 : ¬ cstr l 0 = 0 := by
    rw [cstr_zero_of_nonzero l hz]; exact hne
  have hlen := strlen_of_nonzero l hz
  have hav : (b.allocsz + ULONG_RANGE - b.curlen) % ULONG_RANGE = b.allocsz - b.curlen := by
    have : b.allocsz + ULONG_RANGE - b.curlen = (b.allocsz - b.curlen) + ULONG_RANGE := by omega
    rw [this, Nat.add_mod_right]
    apply Nat.mod_eq_of_lt
    omega
  have hm1 : (b.curlen + l.length + 1) % ULONG_RANGE = b.curlen + l.length + 1 :=
    Nat.mod_eq_of_lt (by omega)
  have hm2 : (b.curlen + l.length) % ULONG_RANGE = b.curlen + l.length :=
    Nat.mod_eq_of_lt (by omega)
  have hcontent : ∀ s : Nat → Nat, (∀ i, i < b.curlen → s i = b.s i) →
      (List.range (b.curlen + l.length + 1)).map (memcpy s b.curlen (cstr l) (l.length + 1))
        = content b ++ l ++ [0] := by
    intro s hs
    rw [Nat.add_assoc, map_range_memcpy, map_range_cstr, content, List.append_assoc,
      map_range_congr hs]
  unfold smartstr_adds
  simp only [ensure_some, hc0, if_false, hlen, hav, hm1, hm2]
  by_cases hfit : b.allocsz - b.curlen ≤ l.length
  · simp only [hfit, if_true]
    have hcl : clampsz b (b.curlen + l.length + 1) ≤ ULONG_RANGE / 2 := by
      unfold clampsz SMARTSTR_INITSZ
      simp only
      split_ifs <;> omega
    have hge : b.curlen + l.length + 1 ≤ clampsz b (b.curlen + l.length + 1) := by
      unfold clampsz SMARTSTR_INITSZ
      simp only
      split_ifs <;> omega
    obtain ⟨r, b1, hr, hcode, hok, hpost⟩ :=
      smartstr_realloc_spec A b (b.curlen + l.length + 1) hone (Or.inr hcl)
    rw [hr]
    rcases hcode with h0 | ⟨hm, _, hb⟩
    · subst h0
      obtain ⟨hcap, hcur1, _, hkeep⟩ := hpost rfl
      refine ⟨0, { allocsz := b1.allocsz, curlen := b.curlen + l.length,
                   s := memcpy b1.s b.curlen (cstr l) (l.length + 1) }, ?_, fun _ => rfl,
        fun _ => ⟨rfl, by simp only; omega, ?_⟩⟩
      · simp [hcur1, hm2]
      simp only
      apply hcontent
      intro i hi
      apply hkeep
      omega
    · subst hm
      refine ⟨-1, b1, by simp, fun hf => absurd (hok hf) (by decide), fun h => absurd h (by decide)⟩
  · simp only [hfit, if_false]
    refine ⟨0, _, rfl, fun _ => rfl, fun _ => ⟨rfl, by simp only; omega, ?_⟩⟩
    simp only
    exact hcontent b.s (fun _ _ => rfl)

theorem set_present (A : Allocator) (b : smartstr_t) (x : List Nat)
    (hv : Valid b) (hz : ∀ c ∈ x, c ≠ 0) (hsz : x.length + 1 < ULONG_RANGE / 2) :
    ∃ r b', smartstr_set A (some (some b)) (some x) = .ret (r, some (some b')) ∧
      (A.realloc_fill ≠ none → r = 0) ∧
      (r = 0 → b'.curlen = x.length ∧ x.length < b'.allocsz ∧
        (List.range (x.length + 1)).map b'.s = x ++ [0]) := by
  obtain ⟨hcur, hone, hmax⟩ := hv
  have hW : ULONG_RANGE = 18446744073709551616 := rfl
  have hlen := strlen_of_nonzero x hz
  have hm1 : (x.length + 1) % ULONG_RANGE = x.length + 1 := Nat.mod_eq_of_lt (by omega)
  have hm2 : (b.curlen + 1) % ULONG_RANGE = b.curlen + 1 := Nat.mod_eq_of_lt (by omega)
  have hcl : clampsz b (x.length + 1) ≤ ULONG_RANGE / 2 := by
    unfold clampsz SMARTSTR_INITSZ
    simp only [hm2]
    split_ifs <;> omega
  have hge : x.length + 1 ≤ clampsz b (x.length + 1) := by
    unfold clampsz SMARTSTR_INITSZ
    simp only [hm2]
    split_ifs <;> omega
  obtain ⟨r, b1, hr, hcode, hok, hpost⟩ :=
    smartstr_realloc_spec A b (x.length + 1) hone (Or.inr hcl)
  unfold smartstr_set
  simp only [ensure_some, hlen, hm1, hr]
  rcases hcode with h0 | ⟨hm, _, _⟩
  · subst h0
    obtain ⟨hcap, _, _, _⟩ := hpost rfl
    refine ⟨0, { allocsz := b1.allocsz, curlen := x.length,
                 s := memcpy b1.s 0 (cstr x) (x.length + 1) }, by simp, fun _ => rfl,
      fun _ => ⟨rfl, by simp only; omega, ?_⟩⟩
    simp only
    have := map_range_memcpy b1.s (cstr x) 0 (x.length + 1)
    simp only [Nat.zero_add, List.range_zero, List.map_nil, List.nil_append] at this
    rw [this, map_range_cstr]
  · subst hm
    refine ⟨-1, b1, by simp, fun hf => absurd (hok hf) (by decide), fun h => absurd h (by decide)⟩

theorem cat_present (A : Allocator) (x y : smartstr_t)
    (hv : Valid x) (hsz : x.curlen + y.curlen + 1 < ULONG_RANGE / 2) :
    ∃ r x', smartstr_cat A (some (some x)) (some y) = .ret (r, some (some x')) ∧
      (A.realloc_fill ≠ none → r = 0) ∧
      (r = 0 → Valid x' ∧ x'.curlen = x.curlen + y.curlen ∧
        content x' = content x ++ content y ∧ x'.s x'.curlen = y.s y.curlen) := by
  obtain ⟨hcur, hone, hmax⟩ := hv
  have hW : ULONG_RANGE = 18446744073709551616 := rfl
  have hm1 : (x.curlen + y.curlen + 1) % ULONG_RANGE = x.curlen + y.curlen + 1 :=
    Nat.mod_eq_of_lt (by omega)
  have hm2 : (x.curlen + y.curlen) % ULONG_RANGE = x.curlen + y.curlen :=
    Nat.mod_eq_of_lt (by omega)
  have hm3 : (y.curlen + 1) % ULONG_RANGE = y.curlen + 1 := Nat.mod_eq_of_lt (by omega)
  have hcl : clampsz x (x.curlen + y.curlen + 1) < ULONG_RANGE / 2 := by
    unfold clampsz SMARTSTR_INITSZ
    simp only
    split_ifs <;> omega
  have hge : x.curlen + y.curlen + 1 ≤ clampsz x (x.curlen + y.curlen + 1) := by
    unfold clampsz SMARTSTR_INITSZ
    simp only
    split_ifs <;> omega
  obtain ⟨r, b1, hr, hcode, hok, hpost⟩ :=
    smartstr_realloc_spec A x (x.curlen + y.curlen + 1) hone (Or.inr (Nat.le_of_lt hcl))
  unfold smartstr_cat
  simp only [ensure_some, hm1, hr]
  rcases hcode with h0 | ⟨hm, _, _⟩
  · subst h0
    obtain ⟨hcap, hcur1, hsize, hkeep⟩ := hpost rfl
    refine ⟨0, { allocsz := b1.allocsz, curlen := x.curlen + y.curlen,
                 s := memcpy b1.s x.curlen y.s (y.curlen + 1) }, by simp [hcur1, hm2, hm3],
      fun _ => rfl, fun _ => ⟨⟨?_, ?_, ?_⟩, rfl, ?_, ?_⟩⟩
    · simp only; omega
    · simp only; omega
    · simp only
      rcases hsize with h | h <;> omega
    · simp only [content]
      rw [map_range_memcpy_le b1.s y.s x.curlen y.curlen (y.curlen + 1) (Nat.le_succ _)]
      congr 1
      apply map_range_congr
      intro i hi
      apply hkeep
      omega
    · simp [memcpy]
  · subst hm
    refine ⟨-2, b1, by simp, fun hf => absurd (hok hf) (by decide), fun h => absurd h (by decide)⟩

theorem addc_present (A : Allocator) (b : smartstr_t) (c : Nat) (hv : Valid b) :
    ∃ r b', smartstr_addc A (some (some b)) c = .ret (r, some (some b')) ∧
      (A.realloc_fill ≠ none → r = 0) ∧
      (r = 0 → b'.curlen = b.curlen + 1 ∧ b'.s b.curlen = c ∧ b'.s (b.curlen + 1) = 0 ∧
        (∀ i, i < b.curlen → b'.s i = b.s i) ∧ b.curlen + 1 ≤ b'.allocsz) := by
  obtain ⟨hcur, hone, hmax⟩ := hv
  have hW : ULONG_RANGE = 18446744073709551616 := rfl
  have hm1 : (b.curlen + 1) % ULONG_RANGE = b.curlen + 1 := Nat.mod_eq_of_lt (by omega)
  have hstore : ∀ s : Nat → Nat, (∀ i, i < b.curlen → s i = b.s i) →
      store (store s b.curlen c) (b.curlen + 1) 0 b.curlen = c ∧
      store (store s b.curlen c) (b.curlen + 1) 0 (b.curlen + 1) = 0 ∧
      ∀ i, i < b.curlen → store (store s b.curlen c) (b.curlen + 1) 0 i = b.s i := by
    intro s hs
    refine ⟨by simp [store], by simp [store], fun i hi => ?_⟩
    have h1 : i ≠ b.curlen + 1 := by omega
    have h2 : i ≠ b.curlen := by omega
    simp [store, h1, h2, hs i hi]
  unfold smartstr_addc
  simp only [ensure_some, hm1]
  by_cases hfull : b.curlen + 1 ≥ b.allocsz
  · simp only [hfull, if_true]
    have hcl : clampsz b (b.curlen + 1) ≤ ULONG_RANGE / 2 := by
      unfold clampsz SMARTSTR_INITSZ
      simp only
      split_ifs <;> omega
    have hge : b.curlen + 1 ≤ clampsz b (b.curlen + 1) := by
      unfold clampsz SMARTSTR_INITSZ
      simp only
      split_ifs <;> omega
    obtain ⟨r, b1, hr, hcode, hok, hpost⟩ :=
      smartstr_realloc_spec A b (b.curlen + 1) hone (Or.inr hcl)
    rw [hr]
    rcases hcode with h0 | ⟨hm, _, _⟩
    · subst h0
      obtain ⟨hcap, hcur1, _, hkeep⟩ := hpost rfl
      obtain ⟨s1, s2, s3⟩ := hstore b1.s (fun i hi => hkeep i (by omega))
      refine ⟨0, { allocsz := b1.allocsz, curlen := b.curlen + 1,
                   s := store (store b1.s b.curlen c) (b.curlen + 1) 0 }, by simp [hcur1, hm1],
        fun _ => rfl, fun _ => ⟨rfl, s1, s2, s3, by simp only; omega⟩⟩
    · subst hm
      refine ⟨-2, b1, by simp, fun hf => absurd (hok hf) (by decide), fun h => absurd h (by decide)⟩
  · simp only [hfull, if_false]
    obtain ⟨s1, s2, s3⟩ := hstore b.s (fun _ _ => rfl)
    exact ⟨0, _, rfl, fun _ => rfl, fun _ => ⟨rfl, s1, s2, s3, by simp only; omega⟩⟩

theorem set_null_present (A : Allocator) (b : smartstr_t) (hv : Valid b) :
    ∃ r b', smartstr_set A (some (some b)) none = .ret (r, some (some b')) ∧
      (A.realloc_fill ≠ none → r = 0) ∧
      (r = 0 → b'.curlen = 0 ∧ b'.s 0 = b.s 0) := by
  obtain ⟨hcur, hone, hmax⟩ := hv
  have hW : ULONG_RANGE = 18446744073709551616 := rfl
  have hm1 : (0 + 1) % ULONG_RANGE = 1 := by decide
  have hm2 : (b.curlen + 1) % ULONG_RANGE = b.curlen + 1 := Nat.mod_eq_of_lt (by omega)
  have hcl : clampsz b 1 ≤ ULONG_RANGE / 2 := by
    unfold clampsz SMARTSTR_INITSZ
    simp only [hm2]
    split_ifs <;> omega
  obtain ⟨r, b1, hr, hcode, hok, hpost⟩ := smartstr_realloc_spec A b 1 hone (Or.inr hcl)
  unfold smartstr_set
  simp only [ensure_some, hm1, hr]
  rcases hcode with h0 | ⟨hm, _, _⟩
  · subst h0
    obtain ⟨_, _, _, hkeep⟩ := hpost rfl
    exact ⟨0, { allocsz := b1.allocsz, curlen := 0, s := b1.s }, by simp, fun _ => rfl,
      fun _ => ⟨rfl, hkeep 0 (Nat.zero_le _)⟩⟩
  · subst hm
    refine ⟨-1, b1, by simp, fun hf => absurd (hok hf) (by decide), fun h => absurd h (by decide)⟩

/-! ## The claims -/

/-- C1 fails on the code. From an absent handle, `smartstr_adds` of 31 bytes
then `smartstr_addc` both return 0 and leave `curlen = allocsz = 32`; so does
`smartstr_addhead` of 32 bytes on an absent handle. In both buffers
`curlen < allocsz` is false. -/
theorem length_reaches_capacity :
    (∃ b1 b2,
      smartstr_adds okAlloc (some none) (some (List.replicate 31 97)) = .ret (0, some (some b1)) ∧
      smartstr_addc okAlloc (some (some b1)) 33 = .ret (0, some (some b2)) ∧
      b2.curlen = 32 ∧ b2.allocsz = 32 ∧ ¬ b2.curlen < b2.allocsz) ∧
    (∃ b3,
      smartstr_addhead okAlloc (some none) (fun _ => 97) 32 = .ret (0, some (some b3)) ∧
      b3.curlen = 32 ∧ b3.allocsz = 32 ∧ ¬ b3.curlen < b3.allocsz) :=
  ⟨⟨_, _, rfl, rfl, rfl, rfl, by decide⟩, ⟨_, rfl, rfl, rfl, by decide⟩⟩

/-- C2 fails on the code. `smartstr_adds` of "abc" on an absent handle gives a
buffer with `curlen = 3 < allocsz = 32` and `s[3] = 0`; `smartstr_set` with a
`NULL` source on it returns 0 and leaves `curlen = 0` with `s[0] = 'a'`, so the
byte at index length is not zero. -/
theorem set_null_leaves_no_sentinel :
    ∃ b1 b2,
      smartstr_adds okAlloc (some none) (some abc) = .ret (0, some (some b1)) ∧
      b1.curlen = 3 ∧ b1.allocsz = 32 ∧ b1.s b1.curlen = 0 ∧
      smartstr_set okAlloc (some (some b1)) none = .ret (0, some (some b2)) ∧
      b2.curlen = 0 ∧ b2.s b2.curlen = 97 :=
  ⟨_, _, rfl, rfl, rfl, rfl, rfl, rfl, rfl⟩

/-- C3 fails on the code. `smartstr_adds` of 40 bytes on an absent handle
returns 0 and leaves `allocsz = 41`, which is not a power of two. -/
theorem capacity_not_power_of_two :
    ∃ b1,
      smartstr_adds okAlloc (some none) (some (List.replicate 40 97)) = .ret (0, some (some b1)) ∧
      b1.allocsz = 41 ∧ ¬ ∃ k, b1.allocsz = 2 ^ k := by
  refine ⟨_, rfl, rfl, ?_⟩
  rintro ⟨k, hk⟩
  have h41 : (41 : Nat) = 2 ^ k := hk
  rcases Nat.lt_or_ge k 6 with h | h
  · interval_cases k <;> omega
  · have := Nat.pow_le_pow_right (show 0 < 2 by decide) h
    omega

/-- C4 (raw append). For every handle (a buffer of valid sizes, or absent and
treated as empty) with content `B` and every zero-free byte string `l` such that
the new length plus sentinel stays below `2^63`: `smartstr_adds` returns, it
returns 0 whenever the allocator provides the blocks, and when it returns 0 the
length is `|B| + |l|` and the payload up to the sentinel is `B ++ l ++ [0]` (for
an empty `l` this uses the sentinel already in place); a non-empty append leaves
the sentinel inside the capacity. With an absent or empty string an existing
buffer is returned unchanged (length, content, capacity), whatever the
allocator would have answered. -/
theorem smartstr_adds_appends (A : Allocator) (h : Handle) (l : List Nat)
    (hv : ∀ b, h = some b → Valid b)
    (hs : l = [] → ∀ b, h = some b → b.s b.curlen = 0)
    (hz : ∀ c ∈ l, c ≠ 0)
    (hsz : smartstr_len h + l.length + 1 ≤ ULONG_RANGE / 2) :
    (∃ r h', smartstr_adds A (some h) (some l) = .ret (r, some h') ∧
        (A.calloc_ok = true → A.realloc_fill ≠ none → r = 0) ∧
        (r = 0 → ∃ b', h' = some b' ∧ b'.curlen = smartstr_len h + l.length ∧
           (l ≠ [] → b'.curlen < b'.allocsz) ∧
           (List.range (b'.curlen + 1)).map b'.s = contentOf h ++ l ++ [0])) ∧
    (∀ b, h = some b →
        smartstr_adds A (some h) none = .ret (0, some (some b)) ∧
        (l = [] → smartstr_adds A (some h) (some l) = .ret (0, some (some b)))) := by
  constructor
  · by_cases hl : l = []
    · subst hl
      cases h with
      | some b =>
        refine ⟨0, some b, rfl, fun _ _ => rfl, fun _ => ⟨b, rfl, rfl, fun hne => absurd rfl hne, ?_⟩⟩
        have := hs rfl b rfl
        simp [contentOf, content, List.range_succ, this]
      | none =>
        cases hc : A.calloc_ok with
        | true =>
          refine ⟨0, some fresh, ?_, fun _ _ => rfl, fun _ => ⟨fresh, rfl, rfl, fun hne => absurd rfl hne, ?_⟩⟩
          · simp [smartstr_adds, ensure_none_ok A hc, cstr]
          · simp [contentOf, fresh, List.range_succ]
        | false =>
          refine ⟨-1, none, ?_, fun hc' => absurd hc' (by simp), fun h0 => absurd h0 (by decide)⟩
          simp [smartstr_adds, ensure_none_fail A hc]
    · cases h with
      | some b =>
        obtain ⟨r, b', hr, hok, hpost⟩ := adds_present A b l (hv b rfl) hz hl hsz
        refine ⟨r, some b', hr, fun _ hf => hok hf, fun h0 => ?_⟩
        obtain ⟨h1, h2, h3⟩ := hpost h0
        exact ⟨b', rfl, h1, fun _ => h2, h3⟩
      | none =>
        cases hc : A.calloc_ok with
        | true =>
          have hsz' : fresh.curlen + l.length + 1 ≤ ULONG_RANGE / 2 := by
            simpa [smartstr_len, fresh] using hsz
          obtain ⟨r, b', hr, hok, hpost⟩ := adds_present A fresh l fresh_valid hz hl hsz'
          have he : smartstr_adds A (some none) (some l) = smartstr_adds A (some (some fresh)) (some l) := by
            simp [smartstr_adds, ensure_none_ok A hc, ensure_some]
          refine ⟨r, some b', he.trans hr, fun _ hf => hok hf, fun h0 => ?_⟩
          obtain ⟨h1, h2, h3⟩ := hpost h0
          refine ⟨b', rfl, ?_, fun _ => h2, ?_⟩
          · simpa [smartstr_len, fresh] using h1
          · simpa [contentOf, content, fresh] using h3
        | false =>
          refine ⟨-1, none, ?_, fun hc' => absurd hc' (by simp), fun h0 => absurd h0 (by decide)⟩
          simp [smartstr_adds, ensure_none_fail A hc]
  · intro b hb
    subst hb
    refine ⟨rfl, fun hl => ?_⟩
    subst hl
    rfl

/-- Witness of C4: appending "Hi" to a fresh buffer. -/
theorem smartstr_adds_appends_witness :
    (∃ r h', smartstr_adds okAlloc (some (some fresh)) (some [72, 105]) = .ret (r, some h') ∧
        (okAlloc.calloc_ok = true → okAlloc.realloc_fill ≠ none → r = 0) ∧
        (r = 0 → ∃ b', h' = some b' ∧ b'.curlen = smartstr_len (some fresh) + [72, 105].length ∧
           ([72, 105] ≠ [] → b'.curlen < b'.allocsz) ∧
           (List.range (b'.curlen + 1)).map b'.s = contentOf (some fresh) ++ [72, 105] ++ [0])) ∧
    (∀ b, some fresh = some b →
        smartstr_adds okAlloc (some (some fresh)) none = .ret (0, some (some b)) ∧
        (([72, 105] : List Nat) = [] →
          smartstr_adds okAlloc (some (some fresh)) (some [72, 105]) = .ret (0, some (some b)))) :=
  smartstr_adds_appends okAlloc (some fresh) [72, 105]
    (fun b hb => by cases hb; exact fresh_valid)
    (fun hl => by cases hl)
    (by decide)
    (by decide)

/-- C5 fails on the code. On a buffer with `L = 31`, `capacity = 32`,
`smartstr_addc` returns 0 with `curlen = 32`, `s[31] = c`, `s[32] = 0`, but the
capacity is still 32, not `≥ L + 2 = 33`. -/
theorem addc_capacity_short :
    full31.curlen < full31.allocsz ∧
    ∃ b1,
      smartstr_addc okAlloc (some (some full31)) 33 = .ret (0, some (some b1)) ∧
      b1.curlen = 32 ∧ b1.s 31 = 33 ∧ b1.s 32 = 0 ∧ b1.allocsz = 32 ∧
      ¬ full31.curlen + 2 ≤ b1.allocsz :=
  ⟨by decide, _, rfl, rfl, rfl, rfl, rfl, by decide⟩

/-- C6 (truncate). For every buffer of valid sizes with content `B` of length
`L` and every `n`: with `n ≥ L` `smartstr_truncate` returns the buffer unchanged
(length, content, capacity); with `n < L` it returns a buffer of length `n` whose
first `n` bytes are the first `n` bytes of `B` and whose byte at index `n` is
zero, whatever the allocator answers to the shrink (so truncating to 0 gives
length 0 and an empty C string). -/
theorem smartstr_truncate_spec (A : Allocator) (b : smartstr_t) (n : Nat) (hv : Valid b) :
    (b.curlen ≤ n → smartstr_truncate A (some (some b)) n = .ret (some (some b))) ∧
    (n < b.curlen → ∃ b', smartstr_truncate A (some (some b)) n = .ret (some (some b')) ∧
        b'.curlen = n ∧ content b' = (content b).take n ∧ b'.s n = 0 ∧
        (n = 0 → smartstr_len (some b') = 0 ∧ b'.s 0 = 0)) := by
  obtain ⟨hcur, hone, hmax⟩ := hv
  have hW : ULONG_RANGE = 18446744073709551616 := rfl
  constructor
  · intro h
    simp [smartstr_truncate, h]
  · intro h
    have hnot : ¬ n ≥ b.curlen := by omega
    have hmod : (n + 1) % ULONG_RANGE = n + 1 := Nat.mod_eq_of_lt (by omega)
    have hcl : clampsz { allocsz := b.allocsz, curlen := n, s := store b.s n 0 } 0
        ≤ ULONG_RANGE / 2 := by
      unfold clampsz SMARTSTR_INITSZ
      simp only [hmod]
      split_ifs <;> omega
    have hge : n + 1 ≤ clampsz { allocsz := b.allocsz, curlen := n, s := store b.s n 0 } 0 := by
      unfold clampsz SMARTSTR_INITSZ
      simp only [hmod]
      split_ifs <;> omega
    obtain ⟨r, b1, hr, hcode, _, hpost⟩ :=
      smartstr_realloc_spec A { allocsz := b.allocsz, curlen := n, s := store b.s n 0 } 0
        hone (Or.inr hcl)
    have hfacts : b1.curlen = n ∧ ∀ i, i ≤ n → b1.s i = store b.s n 0 i := by
      rcases hcode with h0 | ⟨_, _, hb⟩
      · obtain ⟨hcap, hcur1, _, hkeep⟩ := hpost h0
        refine ⟨hcur1, fun i hi => hkeep i ?_⟩
        simp only at hcap ⊢
        omega
      · subst hb
        exact ⟨rfl, fun _ _ => rfl⟩
    obtain ⟨hc1, hkeep⟩ := hfacts
    have hsent : b1.s n = 0 := by
      rw [hkeep n (le_refl n)]
      simp [store]
    refine ⟨b1, ?_, hc1, ?_, hsent, fun hn0 => ⟨by simp [smartstr_len, hc1, hn0], hn0 ▸ hsent⟩⟩
    · simp only [smartstr_truncate, hnot, if_false, hr]
    · rw [content, content, take_map_range b.s n b.curlen (by omega), hc1]
      apply map_range_congr
      intro i hi
      rw [hkeep i (by omega)]
      have : i ≠ n := by omega
      simp [store, this]

/-- Witness of C6: truncating the 31-byte buffer to 5 bytes. -/
theorem smartstr_truncate_spec_witness :
    (full31.curlen ≤ 5 →
      smartstr_truncate okAlloc (some (some full31)) 5 = .ret (some (some full31))) ∧
    (5 < full31.curlen → ∃ b', smartstr_truncate okAlloc (some (some full31)) 5
          = .ret (some (some b')) ∧
        b'.curlen = 5 ∧ content b' = (content full31).take 5 ∧ b'.s 5 = 0 ∧
        (5 = 0 → smartstr_len (some b') = 0 ∧ b'.s 0 = 0)) :=
  smartstr_truncate_spec okAlloc full31 5 (by unfold Valid; decide)

/-- C7 (set round trip). For every handle (absent, or a buffer of valid sizes
with any prior content) and every zero-free byte string `x` shorter than `2^63`:
`smartstr_set` returns, it returns 0 whenever the allocator provides the blocks,
and when it returns 0 the handle is a buffer with `smartstr_len = |x|` whose
payload, as returned by `smartstr_ptr`, starts with `x` followed by the
sentinel, inside the capacity; nothing of this depends on the prior content. -/
theorem smartstr_set_roundtrip (A : Allocator) (h : Handle) (x : List Nat)
    (hv : ∀ b, h = some b → Valid b)
    (hz : ∀ c ∈ x, c ≠ 0)
    (hsz : x.length + 1 < ULONG_RANGE / 2) :
    ∃ r h', smartstr_set A (some h) (some x) = .ret (r, some h') ∧
      (A.calloc_ok = true → A.realloc_fill ≠ none → r = 0) ∧
      (r = 0 → smartstr_len h' = x.length ∧
        ∃ p, smartstr_ptr h' = some p ∧ (List.range (x.length + 1)).map p = x ++ [0] ∧
          ∃ b', h' = some b' ∧ x.length < b'.allocsz) := by
  cases h with
  | some b =>
    obtain ⟨r, b', hr, hok, hpost⟩ := set_present A b x (hv b rfl) hz hsz
    refine ⟨r, some b', hr, fun _ hf => hok hf, fun h0 => ?_⟩
    obtain ⟨h1, h2, h3⟩ := hpost h0
    exact ⟨h1, b'.s, rfl, h3, b', rfl, h2⟩
  | none =>
    cases hc : A.calloc_ok with
    | true =>
      obtain ⟨r, b', hr, hok, hpost⟩ := set_present A fresh x fresh_valid hz hsz
      have he : smartstr_set A (some none) (some x) = smartstr_set A (some (some fresh)) (some x) := by
        simp [smartstr_set, ensure_none_ok A hc, ensure_some]
      refine ⟨r, some b', he.trans hr, fun _ hf => hok hf, fun h0 => ?_⟩
      obtain ⟨h1, h2, h3⟩ := hpost h0
      exact ⟨h1, b'.s, rfl, h3, b', rfl, h2⟩
    | false =>
      refine ⟨-1, none, ?_, fun hc' => absurd hc' (by simp), fun h0 => absurd h0 (by decide)⟩
      simp [smartstr_set, ensure_none_fail A hc]

/-- Witness of C7: setting the 31-byte buffer to "Mateusz". -/
theorem smartstr_set_roundtrip_witness :
    ∃ r h', smartstr_set okAlloc (some (some full31)) (some mateusz) = .ret (r, some h') ∧
      (okAlloc.calloc_ok = true → okAlloc.realloc_fill ≠ none → r = 0) ∧
      (r = 0 → smartstr_len h' = mateusz.length ∧
        ∃ p, smartstr_ptr h' = some p ∧ (List.range (mateusz.length + 1)).map p = mateusz ++ [0] ∧
          ∃ b', h' = some b' ∧ mateusz.length < b'.allocsz) :=
  smartstr_set_roundtrip okAlloc (some full31) mateusz
    (fun b hb => by cases hb; unfold Valid; decide)
    (by decide)
    (by decide)

/-- C8 fails on the code. After `smartstr_set` to "Mateusz", `smartstr_set` with
a `NULL` source returns 0 and `smartstr_len` is 0, but the payload returned by
`smartstr_ptr` still starts with 'M' instead of a zero byte. -/
theorem set_null_keeps_first_byte :
    ∃ b1 b2 p,
      smartstr_set okAlloc (some none) (some mateusz) = .ret (0, some (some b1)) ∧
      smartstr_set okAlloc (some (some b1)) none = .ret (0, some (some b2)) ∧
      smartstr_len (some b2) = 0 ∧
      smartstr_ptr (some b2) = some p ∧ p 0 = 77 :=
  ⟨_, _, _, rfl, rfl, rfl, rfl, rfl⟩

/-- C9 (equality compare). `smartstr_cmp` returns 0 exactly when both handles
are absent, or both are present with equal lengths and identical first-length
bytes. In particular two absent handles compare equal, an absent handle and a
present buffer (empty or not) compare unequal, and two present empty buffers
compare equal whatever bytes their payloads hold. -/
theorem smartstr_cmp_eq_zero_iff (a b : Handle) :
    (smartstr_cmp a b = 0 ↔
      (a = none ∧ b = none) ∨
      ∃ x y, a = some x ∧ b = some y ∧ x.curlen = y.curlen ∧
        ∀ i, i < x.curlen → x.s i = y.s i) ∧
    smartstr_cmp none none = 0 ∧
    (∀ y : smartstr_t, smartstr_cmp none (some y) ≠ 0 ∧ smartstr_cmp (some y) none ≠ 0) ∧
    (∀ x y : smartstr_t, x.curlen = 0 → y.curlen = 0 → smartstr_cmp (some x) (some y) = 0) := by
  refine ⟨?_, rfl, fun y => ⟨by simp [smartstr_cmp], by simp [smartstr_cmp]⟩, ?_⟩
  · cases a with
    | none =>
      cases b with
      | none => simp [smartstr_cmp]
      | some y => simp [smartstr_cmp]
    | some x =>
      cases b with
      | none => simp [smartstr_cmp]
      | some y =>
        simp only [smartstr_cmp]
        constructor
        · intro h
          right
          refine ⟨x, y, rfl, rfl, ?_⟩
          by_cases hlen : x.curlen = y.curlen
          · refine ⟨hlen, ?_⟩
            by_cases hz : x.curlen = 0
            · intro i hi
              omega
            · rw [if_neg (not_not.mpr hlen), if_neg hz] at h
              exact (memcmp_eq_zero_iff _ _ _).mp h
          · rw [if_pos hlen] at h
            exact absurd h (by decide)
        · rintro (⟨h, _⟩ | ⟨x1, y1, hx, hy, hlen, hbytes⟩)
          · cases h
          · cases hx
            cases hy
            rw [if_neg (not_not.mpr hlen)]
            split_ifs
            · rfl
            · exact (memcmp_eq_zero_iff _ _ _).mpr hbytes
  · intro x y hx hy
    simp [smartstr_cmp, hx, hy]

/-- C10 (concatenation is associative on content). For present buffers `a`,
`b`, `c` (`a` and `b` of valid sizes, total length below `2^63`) and allocators
that provide every block: the four concatenations return 0; each `cat(x, y)`
yields length `|x| + |y|` and content `content x ++ content y`; and `a` after
`cat(a, b); cat(a, c)` has the same length, the same content and the same byte
at index length as `a` after `cat(b, c); cat(a, b)`. -/
theorem smartstr_cat_assoc (A1 A2 A3 A4 : Allocator) (a b c : smartstr_t)
    (ha : Valid a) (hb : Valid b)
    (h1 : A1.realloc_fill ≠ none) (h2 : A2.realloc_fill ≠ none)
    (h3 : A3.realloc_fill ≠ none) (h4 : A4.realloc_fill ≠ none)
    (hsz : a.curlen + b.curlen + c.curlen + 1 < ULONG_RANGE / 2) :
    ∃ ab abc bc a_bc,
      smartstr_cat A1 (some (some a)) (some b) = .ret (0, some (some ab)) ∧
      smartstr_cat A2 (some (some ab)) (some c) = .ret (0, some (some abc)) ∧
      smartstr_cat A3 (some (some b)) (some c) = .ret (0, some (some bc)) ∧
      smartstr_cat A4 (some (some a)) (some bc) = .ret (0, some (some a_bc)) ∧
      (ab.curlen = a.curlen + b.curlen ∧ content ab = content a ++ content b) ∧
      (abc.curlen = ab.curlen + c.curlen ∧ content abc = content ab ++ content c) ∧
      (bc.curlen = b.curlen + c.curlen ∧ content bc = content b ++ content c) ∧
      (a_bc.curlen = a.curlen + bc.curlen ∧ content a_bc = content a ++ content bc) ∧
      abc.curlen = a_bc.curlen ∧ content abc = content a_bc ∧
      abc.s abc.curlen = a_bc.s a_bc.curlen := by
  obtain ⟨r1, ab, e1, ok1, p1⟩ := cat_present A1 a b ha (by omega)
  have hr1 := ok1 h1
  subst hr1
  obtain ⟨vab, lab, cab, _⟩ := p1 rfl
  obtain ⟨r2, abc, e2, ok2, p2⟩ := cat_present A2 ab c vab (by omega)
  have hr2 := ok2 h2
  subst hr2
  obtain ⟨_, labc, cabc, sabc⟩ := p2 rfl
  obtain ⟨r3, bc, e3, ok3, p3⟩ := cat_present A3 b c hb (by omega)
  have hr3 := ok3 h3
  subst hr3
  obtain ⟨_, lbc, cbc, sbc⟩ := p3 rfl
  obtain ⟨r4, a_bc, e4, ok4, p4⟩ := cat_present A4 a bc ha (by omega)
  have hr4 := ok4 h4
  subst hr4
  obtain ⟨_, la_bc, ca_bc, sa_bc⟩ := p4 rfl
  refine ⟨ab, abc, bc, a_bc, e1, e2, e3, e4, ⟨lab, cab⟩, ⟨labc, cabc⟩, ⟨lbc, cbc⟩,
    ⟨la_bc, ca_bc⟩, by omega, ?_, ?_⟩
  · rw [cabc, cab, ca_bc, cbc, List.append_assoc]
  · rw [sabc, sa_bc, sbc]

/-- Witness of C10: "abc", "Mateusz" and the 31-byte buffer. -/
theorem smartstr_cat_assoc_witness :
    ∃ ab abc bc a_bc,
      smartstr_cat okAlloc (some (some bufAbc)) (some bufMateusz) = .ret (0, some (some ab)) ∧
      smartstr_cat okAlloc (some (some ab)) (some full31) = .ret (0, some (some abc)) ∧
      smartstr_cat okAlloc (some (some bufMateusz)) (some full31) = .ret (0, some (some bc)) ∧
      smartstr_cat okAlloc (some (some bufAbc)) (some bc) = .ret (0, some (some a_bc)) ∧
      (ab.curlen = bufAbc.curlen + bufMateusz.curlen ∧
        content ab = content bufAbc ++ content bufMateusz) ∧
      (abc.curlen = ab.curlen + full31.curlen ∧ content abc = content ab ++ content full31) ∧
      (bc.curlen = bufMateusz.curlen + full31.curlen ∧
        content bc = content bufMateusz ++ content full31) ∧
      (a_bc.curlen = bufAbc.curlen + bc.curlen ∧ content a_bc = content bufAbc ++ content bc) ∧
      abc.curlen = a_bc.curlen ∧ content abc = content a_bc ∧
      abc.s abc.curlen = a_bc.s a_bc.curlen :=
  smartstr_cat_assoc okAlloc okAlloc okAlloc okAlloc bufAbc bufMateusz full31
    (by unfold Valid; decide) (by unfold Valid; decide)
    (by simp [okAlloc]) (by simp [okAlloc]) (by simp [okAlloc]) (by simp [okAlloc])
    (by decide)

/-! ## Formatted append: auxiliary facts -/

theorem toLong_small (x : Nat) (h : x < ULONG_RANGE / 2) : toLong x = (x : Int) := by
  simp [toLong, h]

theorem toULong_natCast (n : Nat) (h : n < ULONG_RANGE) : toULong (n : Int) = n := by
  unfold toULong
  rw [Int.emod_eq_of_lt (by omega) (by exact_mod_cast h)]
  simp

theorem map_range_getD (l : List Nat) (d : Nat) :
    (List.range l.length).map (fun i => l.getD i d) = l := by
  apply List.ext_getElem
  · simp
  · intro i h1 h2
    simp [List.getD_eq_getElem?_getD, List.getElem?_eq_getElem h2]

theorem map_range_store_memcpy (s : Nat → Nat) (L : Nat) (r : List Nat) :
    (List.range (L + r.length + 1)).map
        (store (memcpy s L (fun i => r.getD i 0) r.length) (L + r.length) 0)
      = (List.range L).map s ++ r ++ [0] := by
  rw [List.range_succ, List.map_append]
  congr 1
  · rw [← map_range_getD r 0, ← map_range_memcpy s (fun i => r.getD i 0) L r.length,
      map_range_getD r 0]
    apply map_range_congr
    intro i hi
    have : i ≠ L + r.length := by omega
    simp [store, this]
  · simp [store]

theorem vsnprintf_keeps_below (dst : Nat → Nat) (off size : Nat) (f : Rendered) (i : Nat)
    (hi : i < off) : (vsnprintf dst off size f).1 i = dst i := by
  unfold vsnprintf
  cases f with
  | text r =>
    simp only
    split_ifs
    · rfl
    · have h1 : i ≠ off + min r.length (size - 1) := by omega
      have h2 : ¬ (off ≤ i ∧ i < off + min r.length (size - 1)) := by omega
      simp [store, memcpy, h1, h2]
  | failure junk =>
    have h2 : ¬ (off ≤ i ∧ i < off + size) := by omega
    simp [h2]

theorem addfLoop_fit (A : Allocator) (fuel : Nat) (b : smartstr_t) (r : List Nat)
    (hv : Valid b) (hfit : r.length < b.allocsz - b.curlen) :
    addfLoop A (.text r) (fuel + 1) b =
      .ret (0, { allocsz := b.allocsz
                 curlen := b.curlen + r.length
                 s := store (memcpy b.s b.curlen (fun i => r.getD i 0) r.length)
                        (b.curlen + r.length) 0 }) := by
  obtain ⟨hcur, hone, hmax⟩ := hv
  have hW : ULONG_RANGE = 18446744073709551616 := rfl
  have hav : (b.allocsz + ULONG_RANGE - b.curlen) % ULONG_RANGE = b.allocsz - b.curlen := by
    have : b.allocsz + ULONG_RANGE - b.curlen = (b.allocsz - b.curlen) + ULONG_RANGE := by omega
    rw [this, Nat.add_mod_right]
    apply Nat.mod_eq_of_lt
    omega
  have hlong : toLong (b.allocsz - b.curlen) = ((b.allocsz - b.curlen : Nat) : Int) :=
    toLong_small _ (by omega)
  have hne : ¬ b.allocsz - b.curlen = 0 := by omega
  have hk : min r.length (b.allocsz - b.curlen - 1) = r.length := by omega
  have hres : (vsnprintf b.s b.curlen (b.allocsz - b.curlen) (.text r)) =
      (store (memcpy b.s b.curlen (fun i => r.getD i 0) r.length) (b.curlen + r.length) 0,
        (r.length : Int)) := by
    simp [vsnprintf, hne, hk]
  have hu : toULong (r.length : Int) = r.length := toULong_natCast _ (by omega)
  have hm : (b.curlen + r.length) % ULONG_RANGE = b.curlen + r.length :=
    Nat.mod_eq_of_lt (by omega)
  have hnot : ¬ ((r.length : Int) ≥ ((b.allocsz - b.curlen : Nat) : Int)) := by omega
  have hnn : ¬ ((r.length : Int) < 0) := by omega
  rw [addfLoop]
  simp only [hav, hres, hlong, hnot, hnn, if_false, hu, hm]

theorem trimmed_keeps (b : smartstr_t) (f : Rendered) :
    (trimmed b f).allocsz = b.allocsz ∧ (trimmed b f).curlen = b.curlen ∧
    (trimmed b f).s b.curlen = 0 ∧ ∀ i, i < b.curlen → (trimmed b f).s i = b.s i := by
  refine ⟨rfl, rfl, by simp [trimmed, store], fun i hi => ?_⟩
  have : i ≠ b.curlen := by omega
  simp only [trimmed, store, this, if_false]
  exact vsnprintf_keeps_below _ _ _ _ _ hi

theorem addfLoop_retry (A : Allocator) (fuel : Nat) (b : smartstr_t) (r : List Nat)
    (hv : Valid b) (hnofit : b.allocsz - b.curlen ≤ r.length)
    (hsz : b.curlen + r.length + 1 < ULONG_RANGE / 2) :
    addfLoop A (.text r) (fuel + 1) b =
      match smartstr_realloc A (trimmed b (.text r)) (b.curlen + r.length + 1) with
      | .hang => .hang
      | .fault => .fault
      | .ret (c, b2) => if c = 0 then addfLoop A (.text r) fuel b2 else .ret (-1, b2) := by
  obtain ⟨hcur, hone, hmax⟩ := hv
  have hW : ULONG_RANGE = 18446744073709551616 := rfl
  have hav : (b.allocsz + ULONG_RANGE - b.curlen) % ULONG_RANGE = b.allocsz - b.curlen := by
    have : b.allocsz + ULONG_RANGE - b.curlen = (b.allocsz - b.curlen) + ULONG_RANGE := by omega
    rw [this, Nat.add_mod_right]
    apply Nat.mod_eq_of_lt
    omega
  have hlong : toLong (b.allocsz - b.curlen) = ((b.allocsz - b.curlen : Nat) : Int) :=
    toLong_small _ (by omega)
  have hlen : (vsnprintf b.s b.curlen (b.allocsz - b.curlen) (.text r)).2 = (r.length : Int) := by
    unfold vsnprintf
    simp only
    split_ifs <;> rfl
  have hu : toULong (r.length : Int) = r.length := toULong_natCast _ (by omega)
  have hm : (b.curlen + r.length + 1) % ULONG_RANGE = b.curlen + r.length + 1 :=
    Nat.mod_eq_of_lt (by omega)
  have hge : ((r.length : Int) ≥ ((b.allocsz - b.curlen : Nat) : Int)) := by omega
  rw [addfLoop]
  simp only [hav, hlen, hlong, hge, if_true, hu, hm, trimmed]

theorem realloc_trimmed (A : Allocator) (b : smartstr_t) (r : List Nat)
    (hv : Valid b) (hsz : b.curlen + r.length + 1 < ULONG_RANGE / 2) :
    ∃ c b2, smartstr_realloc A (trimmed b (.text r)) (b.curlen + r.length + 1) = .ret (c, b2) ∧
      (c = 0 ∨ (c = -1 ∧ A.realloc_fill = none ∧ b2 = trimmed b (.text r))) ∧
      (A.realloc_fill ≠ none → c = 0) ∧
      (c = 0 → Valid b2 ∧ b2.curlen = b.curlen ∧ r.length < b2.allocsz - b2.curlen ∧
        ∀ i, i < b.curlen → b2.s i = b.s i) := by
  obtain ⟨hcur, hone, hmax⟩ := hv
  have hW : ULONG_RANGE = 18446744073709551616 := rfl
  obtain ⟨ta, tc, _, tkeep⟩ := trimmed_keeps b (.text r)
  have hcl : clampsz (trimmed b (.text r)) (b.curlen + r.length + 1) < ULONG_RANGE / 2 := by
    unfold clampsz SMARTSTR_INITSZ
    simp only [tc]
    split_ifs <;> omega
  have hge : b.curlen + r.length + 1 ≤ clampsz (trimmed b (.text r)) (b.curlen + r.length + 1) := by
    unfold clampsz SMARTSTR_INITSZ
    simp only [tc]
    split_ifs <;> omega
  obtain ⟨c, b2, hr, hcode, hok, hpost⟩ :=
    smartstr_realloc_spec A (trimmed b (.text r)) (b.curlen + r.length + 1)
      (by rw [ta]; exact hone) (Or.inr (Nat.le_of_lt hcl))
  refine ⟨c, b2, hr, hcode, hok, fun h0 => ?_⟩
  obtain ⟨hcap, hcur2, hsize, hkeep⟩ := hpost h0
  rw [ta] at hsize hkeep
  rw [tc] at hcur2
  refine ⟨⟨by omega, by omega, ?_⟩, hcur2, by omega, fun i hi => ?_⟩
  · rcases hsize with h | h <;> omega
  · rw [hkeep i (by omega)]
    exact tkeep i hi

theorem addfLoop_failure (A : Allocator) (fuel : Nat) (b : smartstr_t) (junk : Nat → Nat)
    (hv : Valid b) :
    addfLoop A (.failure junk) (fuel + 1) b = .ret (-4, trimmed b (.failure junk)) := by
  obtain ⟨hcur, hone, hmax⟩ := hv
  have hW : ULONG_RANGE = 18446744073709551616 := rfl
  have hav : (b.allocsz + ULONG_RANGE - b.curlen) % ULONG_RANGE = b.allocsz - b.curlen := by
    have : b.allocsz + ULONG_RANGE - b.curlen = (b.allocsz - b.curlen) + ULONG_RANGE := by omega
    rw [this, Nat.add_mod_right]
    apply Nat.mod_eq_of_lt
    omega
  have hlong : toLong (b.allocsz - b.curlen) = ((b.allocsz - b.curlen : Nat) : Int) :=
    toLong_small _ (by omega)
  have hlen : (vsnprintf b.s b.curlen (b.allocsz - b.curlen) (.failure junk)).2 = -1 := rfl
  have hnot : ¬ ((-1 : Int) ≥ ((b.allocsz - b.curlen : Nat) : Int)) := by omega
  rw [addfLoop]
  simp only [hav, hlen, hlong, hnot, if_false, trimmed]
  simp

theorem addfLoop_text_ok (A : Allocator) (fuel : Nat) (b : smartstr_t) (r : List Nat)
    (hv : Valid b) (hr : A.realloc_fill ≠ none)
    (hsz : b.curlen + r.length + 1 < ULONG_RANGE / 2) :
    ∃ b', addfLoop A (.text r) (fuel + 2) b = .ret (0, b') ∧
      b'.curlen = b.curlen + r.length ∧
      (List.range (b'.curlen + 1)).map b'.s = content b ++ r ++ [0] := by
  by_cases hfit : r.length < b.allocsz - b.curlen
  · refine ⟨_, addfLoop_fit A (fuel + 1) b r hv hfit, rfl, ?_⟩
    simp only
    rw [map_range_store_memcpy, content]
  · obtain ⟨c, b2, hre, _, hok, hpost⟩ := realloc_trimmed A b r hv hsz
    have hc := hok hr
    subst hc
    obtain ⟨hv2, hcur2, hfit2, hkeep⟩ := hpost rfl
    have hstep := addfLoop_retry A (fuel + 1) b r hv (by omega) hsz
    rw [hre] at hstep
    simp only [if_true] at hstep
    rw [addfLoop_fit A fuel b2 r hv2 hfit2] at hstep
    refine ⟨_, hstep, by simp only [hcur2], ?_⟩
    simp only [hcur2]
    rw [map_range_store_memcpy, content, map_range_congr hkeep]

/-! ## Capacity of buffers that only grow -/

theorem realloc_tight (A : Allocator) (b : smartstr_t) (req : Nat) (c : Int) (b1 : smartstr_t)
    (ht : Tight b) (hlo : b.curlen ≤ req) (hhi : req < ULONG_RANGE / 2)
    (h : smartstr_realloc A b req = .ret (c, b1)) (h0 : c = 0) :
    b1.curlen = b.curlen ∧ req ≤ b1.allocsz ∧ 32 ≤ b1.allocsz ∧
      b1.allocsz < ULONG_RANGE / 2 ∧ (b1.allocsz = b.allocsz ∨ b1.allocsz = max 32 req) := by
  obtain ⟨hcur, h32, hmax, _⟩ := ht
  have hW : ULONG_RANGE = 18446744073709551616 := rfl
  have hcl : clampsz b req = max 32 req := by
    unfold clampsz SMARTSTR_INITSZ
    simp only
    split_ifs <;> omega
  obtain ⟨c', b1', hr, _, _, hpost⟩ :=
    smartstr_realloc_spec A b req (by omega) (Or.inr (by rw [hcl]; omega))
  rw [hr] at h
  injection h with h
  injection h with hc hb
  subst hc
  subst hb
  obtain ⟨hcap, hcur1, hsize, _⟩ := hpost h0
  rw [hcl] at hcap hsize
  refine ⟨hcur1, by omega, by omega, ?_, hsize⟩
  rcases hsize with h | h <;> omega

theorem tight_fresh : Tight fresh := by
  unfold Tight fresh SMARTSTR_INITSZ ULONG_RANGE
  simp

theorem ret_handle_inj {c d : Int} {x y : smartstr_t}
    (h : (Outcome.ret (c, some (some x)) : Outcome (Int × HandleRef)) = .ret (d, some (some y))) :
    c = d ∧ x = y := by
  injection h with h
  injection h with h1 h2
  injection h2 with h2
  injection h2 with h2
  exact ⟨h1, h2⟩

theorem adds_tight (A : Allocator) (b b' : smartstr_t) (s : Option (List Nat))
    (ht : Tight b) (hsz : b.curlen + optlen s + 1 < ULONG_RANGE / 2)
    (h : smartstr_adds A (some (some b)) s = .ret (0, some (some b'))) : Tight b' := by
  have ht' := ht
  obtain ⟨hcur, h32, hmax, htight⟩ := ht'
  have hW : ULONG_RANGE = 18446744073709551616 := rfl
  unfold smartstr_adds at h
  simp only [ensure_some] at h
  cases s with
  | none =>
    simp only at h
    injection h with h
    injection h with _ h
    injection h with h
    injection h with h
    subst h
    exact ht
  | some l =>
    simp only [optlen] at hsz
    simp only at h
    split_ifs at h with h0 hav
    · injection h with h
      injection h with _ h
      injection h with h
      injection h with h
      subst h
      exact ht
    · have hm1 : (b.curlen + strlen l + 1) % ULONG_RANGE = b.curlen + strlen l + 1 :=
        Nat.mod_eq_of_lt (by omega)
      rw [hm1] at h
      cases hr : smartstr_realloc A b (b.curlen + strlen l + 1) with
      | hang => rw [hr] at h; simp at h
      | fault => rw [hr] at h; simp at h
      | ret p =>
        obtain ⟨c, b1⟩ := p
        rw [hr] at h
        simp only at h
        split_ifs at h with hc
        · injection h with h
          injection h with h _
          exact absurd h (by decide)
        · have hc0 : c = 0 := by simpa using hc
          obtain ⟨f1, f2, f3, f4, f5⟩ :=
            realloc_tight A b _ c b1 ht (by omega) (by omega) hr hc0
          injection h with h
          injection h with _ h
          injection h with h
          injection h with h
          subst h
          have hm2 : (b1.curlen + strlen l) % ULONG_RANGE = b.curlen + strlen l := by
            rw [f1]; exact Nat.mod_eq_of_lt (by omega)
          refine ⟨?_, f3, f4, ?_⟩
          · simp only [hm2]; omega
          · simp only [hm2]
            rcases f5 with e | e <;> omega
    · have hav' : (b.allocsz + ULONG_RANGE - b.curlen) % ULONG_RANGE = b.allocsz - b.curlen := by
        have : b.allocsz + ULONG_RANGE - b.curlen = (b.allocsz - b.curlen) + ULONG_RANGE := by
          omega
        rw [this, Nat.add_mod_right]
        apply Nat.mod_eq_of_lt
        omega
      rw [hav'] at hav
      injection h with h
      injection h with _ h
      injection h with h
      injection h with h
      subst h
      have hm2 : (b.curlen + strlen l) % ULONG_RANGE = b.curlen + strlen l :=
        Nat.mod_eq_of_lt (by omega)
      refine ⟨?_, h32, hmax, ?_⟩
      · simp only [hm2]; omega
      · simp only [hm2]; omega

theorem addc_tight (A : Allocator) (b b' : smartstr_t) (c : Nat)
    (ht : Tight b) (hsz : b.curlen + 2 < ULONG_RANGE / 2)
    (h : smartstr_addc A (some (some b)) c = .ret (0, some (some b'))) : Tight b' := by
  have ht' := ht
  obtain ⟨hcur, h32, hmax, htight⟩ := ht'
  have hW : ULONG_RANGE = 18446744073709551616 := rfl
  have hm1 : (b.curlen + 1) % ULONG_RANGE = b.curlen + 1 := Nat.mod_eq_of_lt (by omega)
  unfold smartstr_addc at h
  simp only [ensure_some, hm1] at h
  split_ifs at h with hfull
  · cases hr : smartstr_realloc A b (b.curlen + 1) with
    | hang => rw [hr] at h; simp at h
    | fault => rw [hr] at h; simp at h
    | ret p =>
      obtain ⟨r, b1⟩ := p
      rw [hr] at h
      simp only at h
      split_ifs at h with hc
      · exact absurd (ret_handle_inj h).1 (by decide)
      · have hc0 : r = 0 := by simpa using hc
        obtain ⟨f1, f2, f3, f4, f5⟩ :=
          realloc_tight A b _ r b1 ht (by omega) (by omega) hr hc0
        obtain ⟨_, hb⟩ := ret_handle_inj h
        subst hb
        have hm2 : (b1.curlen + 1) % ULONG_RANGE = b.curlen + 1 := by rw [f1]; exact hm1
        refine ⟨?_, f3, f4, ?_⟩
        · simp only [hm2]; omega
        · simp only [hm2]
          rcases f5 with e | e <;> omega
  · obtain ⟨_, hb⟩ := ret_handle_inj h
    subst hb
    refine ⟨?_, h32, hmax, ?_⟩
    · simp only [hm1]; omega
    · simp only [hm1]; omega

theorem addhead_tight (A : Allocator) (b b' : smartstr_t) (head : Nat → Nat) (hlen : Nat)
    (ht : Tight b) (hsz : b.curlen + hlen + 1 < ULONG_RANGE / 2)
    (h : smartstr_addhead A (some (some b)) head hlen = .ret (0, some (some b'))) :
    Tight b' := by
  have ht' := ht
  obtain ⟨hcur, h32, hmax, htight⟩ := ht'
  have hW : ULONG_RANGE = 18446744073709551616 := rfl
  have hm1 : (b.curlen + hlen) % ULONG_RANGE = b.curlen + hlen := Nat.mod_eq_of_lt (by omega)
  unfold smartstr_addhead at h
  split_ifs at h with hz
  · obtain ⟨_, hb⟩ := ret_handle_inj h
    subst hb
    exact ht
  · simp only [ensure_some, hm1] at h
    cases hr : smartstr_realloc A b (b.curlen + hlen) with
    | hang => rw [hr] at h; simp at h
    | fault => rw [hr] at h; simp at h
    | ret p =>
      obtain ⟨r, b1⟩ := p
      rw [hr] at h
      simp only at h
      split_ifs at h with hc
      · exact absurd (ret_handle_inj h).1 (by decide)
      · have hc0 : r = 0 := by simpa using hc
        obtain ⟨f1, f2, f3, f4, f5⟩ :=
          realloc_tight A b _ r b1 ht (by omega) (by omega) hr hc0
        obtain ⟨_, hb⟩ := ret_handle_inj h
        subst hb
        have hm2 : (b1.curlen + hlen) % ULONG_RANGE = b.curlen + hlen := by rw [f1]; exact hm1
        refine ⟨?_, f3, f4, ?_⟩
        · simp only [hm2]; omega
        · simp only [hm2]
          rcases f5 with e | e <;> omega

theorem cat_tight (A : Allocator) (b b' : smartstr_t) (s2 : Handle)
    (ht : Tight b) (hsz : b.curlen + smartstr_len s2 + 1 < ULONG_RANGE / 2)
    (h : smartstr_cat A (some (some b)) s2 = .ret (0, some (some b'))) : Tight b' := by
  have ht' := ht
  obtain ⟨hcur, h32, hmax, htight⟩ := ht'
  have hW : ULONG_RANGE = 18446744073709551616 := rfl
  unfold smartstr_cat at h
  cases s2 with
  | none =>
    simp only at h
    obtain ⟨_, hb⟩ := ret_handle_inj h
    subst hb
    exact ht
  | some b2 =>
    simp only [smartstr_len] at hsz
    have hm1 : (b.curlen + b2.curlen + 1) % ULONG_RANGE = b.curlen + b2.curlen + 1 :=
      Nat.mod_eq_of_lt (by omega)
    simp only [ensure_some, hm1] at h
    cases hr : smartstr_realloc A b (b.curlen + b2.curlen + 1) with
    | hang => rw [hr] at h; simp at h
    | fault => rw [hr] at h; simp at h
    | ret p =>
      obtain ⟨r, b1⟩ := p
      rw [hr] at h
      simp only at h
      split_ifs at h with hc
      · exact absurd (ret_handle_inj h).1 (by decide)
      · have hc0 : r = 0 := by simpa using hc
        obtain ⟨f1, f2, f3, f4, f5⟩ :=
          realloc_tight A b _ r b1 ht (by omega) (by omega) hr hc0
        obtain ⟨_, hb⟩ := ret_handle_inj h
        subst hb
        have hm2 : (b1.curlen + b2.curlen) % ULONG_RANGE = b.curlen + b2.curlen := by
          rw [f1]; exact Nat.mod_eq_of_lt (by omega)
        refine ⟨?_, f3, f4, ?_⟩
        · simp only [hm2]; omega
        · simp only [hm2]
          rcases f5 with e | e <;> omega

theorem set_tight (A : Allocator) (b b' : smartstr_t) (init : Option (List Nat))
    (ht : Tight b) (hlonger : b.curlen ≤ optlen init)
    (hsz : optlen init + 1 < ULONG_RANGE / 2)
    (h : smartstr_set A (some (some b)) init = .ret (0, some (some b'))) : Tight b' := by
  have ht' := ht
  obtain ⟨hcur, h32, hmax, htight⟩ := ht'
  have hW : ULONG_RANGE = 18446744073709551616 := rfl
  have hm1 : (optlen init + 1) % ULONG_RANGE = optlen init + 1 := Nat.mod_eq_of_lt (by omega)
  have hshape : ∃ s1 : smartstr_t → Nat → Nat,
      smartstr_set A (some (some b)) init =
        match smartstr_realloc A b (optlen init + 1) with
        | .hang => .hang
        | .fault => .fault
        | .ret (r, b1) =>
          if r ≠ 0 then .ret (-1, some (some b1))
          else .ret (0, some (some { allocsz := b1.allocsz, curlen := optlen init, s := s1 b1 })) := by
    cases init with
    | none =>
      refine ⟨fun b1 => b1.s, ?_⟩
      simp only [optlen] at hm1 ⊢
      simp only [smartstr_set, ensure_some, hm1]
    | some l =>
      refine ⟨fun b1 => memcpy b1.s 0 (cstr l) (strlen l + 1), ?_⟩
      simp only [optlen] at hm1 ⊢
      simp only [smartstr_set, ensure_some, hm1]
  obtain ⟨s1, hshape⟩ := hshape
  rw [hshape] at h
  cases hr : smartstr_realloc A b (optlen init + 1) with
  | hang => rw [hr] at h; simp at h
  | fault => rw [hr] at h; simp at h
  | ret p =>
    obtain ⟨r, b1⟩ := p
    rw [hr] at h
    simp only at h
    split_ifs at h with hc
    · exact absurd (ret_handle_inj h).1 (by decide)
    · have hc0 : r = 0 := by simpa using hc
      obtain ⟨f1, f2, f3, f4, f5⟩ :=
        realloc_tight A b _ r b1 ht (by omega) (by omega) hr hc0
      obtain ⟨_, hb⟩ := ret_handle_inj h
      subst hb
      refine ⟨?_, f3, f4, ?_⟩
      · simp only; omega
      · simp only
        rcases f5 with e | e <;> omega

theorem truncate_tight (A : Allocator) (b b' : smartstr_t) (maxlen : Nat)
    (ht : Tight b) (hno : b.curlen ≤ maxlen)
    (h : smartstr_truncate A (some (some b)) maxlen = .ret (some (some b'))) : Tight b' := by
  unfold smartstr_truncate at h
  simp only [ge_iff_le, hno, if_true] at h
  injection h with h
  injection h with h
  injection h with h
  subst h
  exact ht

theorem addf_tight (fuel : Nat) (A : Allocator) (b b' : smartstr_t) (r : List Nat)
    (ht : Tight b) (hsz : b.curlen + r.length + 1 < ULONG_RANGE / 2)
    (h : smartstr_addf fuel A (some (some b)) (.text r) = .ret (0, some (some b'))) :
    Tight b' := by
  have ht' := ht
  obtain ⟨hcur, h32, hmax, htight⟩ := ht'
  have hW : ULONG_RANGE = 18446744073709551616 := rfl
  have hv : Valid b := ⟨hcur, by omega, hmax⟩
  unfold smartstr_addf at h
  simp only [ensure_some] at h
  cases fuel with
  | zero => simp [addfLoop] at h
  | succ k =>
    by_cases hfit : r.length < b.allocsz - b.curlen
    · rw [addfLoop_fit A k b r hv hfit] at h
      obtain ⟨_, hb⟩ := ret_handle_inj h
      subst hb
      refine ⟨?_, h32, hmax, ?_⟩
      · simp only; omega
      · simp only; omega
    · rw [addfLoop_retry A k b r hv (by omega) hsz] at h
      obtain ⟨ta, tc, _, _⟩ := trimmed_keeps b (.text r)
      have htt : Tight (trimmed b (.text r)) := by
        unfold Tight
        rw [ta, tc]
        exact ht
      cases hr : smartstr_realloc A (trimmed b (.text r)) (b.curlen + r.length + 1) with
      | hang => rw [hr] at h; simp at h
      | fault => rw [hr] at h; simp at h
      | ret p =>
        obtain ⟨c, b2⟩ := p
        rw [hr] at h
        simp only at h
        split_ifs at h with hc
        · obtain ⟨f1, f2, f3, f4, f5⟩ :=
            realloc_tight A (trimmed b (.text r)) _ c b2 htt (by rw [tc]; omega) (by omega) hr hc
          rw [tc] at f1
          rw [ta] at f5
          have hv2 : Valid b2 := ⟨by omega, by omega, f4⟩
          cases k with
          | zero => simp [addfLoop] at h
          | succ j =>
            rw [addfLoop_fit A j b2 r hv2 (by omega)] at h
            obtain ⟨_, hb⟩ := ret_handle_inj h
            subst hb
            refine ⟨?_, f3, f4, ?_⟩
            · simp only; omega
            · simp only
              rcases f5 with e | e <;> omega
        · exact absurd (ret_handle_inj h).1 (by decide)

theorem grown_tight (b : smartstr_t) (h : Grown b) : Tight b := by
  induction h with
  | fresh => exact tight_fresh
  | adds A b b' s _ hsz hrun ih => exact adds_tight A b b' s ih hsz hrun
  | addc A b b' c _ hsz hrun ih => exact addc_tight A b b' c ih hsz hrun
  | addhead A b b' head hlen _ hsz hrun ih => exact addhead_tight A b b' head hlen ih hsz hrun
  | addf fuel A b b' r _ hsz hrun ih => exact addf_tight fuel A b b' r ih hsz hrun
  | cat A b b' s2 _ hsz hrun ih => exact cat_tight A b b' s2 ih hsz hrun
  | set A b b' init _ hlonger hsz hrun ih => exact set_tight A b b' init ih hlonger hsz hrun
  | truncate A b b' maxlen _ hno hrun ih => exact truncate_tight A b b' maxlen ih hno hrun

/-! ## The ladder of the resize algorithm -/

theorem isPow2_pos (n : Nat) (h : IsPow2 n) : 1 ≤ n := by
  obtain ⟨k, hk⟩ := h
  rw [hk]
  exact Nat.one_le_two_pow

theorem isPow2_double (n : Nat) (h : IsPow2 n) : IsPow2 (n * 2) := by
  obtain ⟨k, hk⟩ := h
  exact ⟨k + 1, by rw [hk, pow_succ]⟩

theorem isPow2_half (n : Nat) (h : IsPow2 n) (h2 : 2 ≤ n) : IsPow2 (n / 2) ∧ n = 2 * (n / 2) := by
  obtain ⟨k, hk⟩ := h
  cases k with
  | zero => rw [hk] at h2; simp at h2
  | succ j =>
    have : n / 2 = 2 ^ j := by rw [hk, pow_succ]; omega
    exact ⟨⟨j, this⟩, by rw [this, hk, pow_succ]; omega⟩

theorem least_of_half_lt (t L : Nat) (hp : IsPow2 L) (hle : t ≤ L) (hhalf : L / 2 < t) :
    IsLeastPow2 t L := by
  refine ⟨hp, hle, fun q hq htq => ?_⟩
  by_contra hlt
  have hlt' : q < L := by omega
  obtain ⟨k, hk⟩ := hp
  obtain ⟨j, hj⟩ := hq
  rw [hk, hj] at hlt'
  have hjk : j < k := (Nat.pow_lt_pow_iff_right (by decide)).mp hlt'
  cases k with
  | zero => omega
  | succ k' =>
    have h1 : 2 ^ j ≤ 2 ^ k' := Nat.pow_le_pow_right (by decide) (by omega)
    have h2 : L / 2 = 2 ^ k' := by rw [hk, pow_succ]; omega
    omega

theorem least_self (t : Nat) (hp : IsPow2 t) : IsLeastPow2 t t :=
  ⟨hp, le_refl t, fun _ _ h => h⟩

theorem growLoop_pow2 (t : Nat) :
    ∀ fuel a, IsPow2 a → (t ≤ a ∨ t ≤ ULONG_RANGE / 2) → t ≤ a * 2 ^ fuel →
      ∃ g, growLoop t (fuel + 1) a = some g ∧ IsPow2 g ∧ t ≤ g ∧
        (t ≤ a → g = a) ∧ (a < t → g / 2 < t) := by
  intro fuel
  induction fuel with
  | zero =>
    intro a hp _ h
    have hnot : ¬ t > a := by omega
    refine ⟨a, by simp [growLoop, hnot], hp, by omega, fun _ => rfl, fun h' => by omega⟩
  | succ f ih =>
    intro a hp hn h
    by_cases hgt : t > a
    · have hW : t ≤ ULONG_RANGE / 2 := by omega
      have hmod : a * 2 % ULONG_RANGE = a * 2 := by
        apply Nat.mod_eq_of_lt
        unfold ULONG_RANGE at *
        omega
      have h2 : t ≤ a * 2 * 2 ^ f := by
        rw [pow_succ] at h
        nlinarith
      obtain ⟨g, hg, hgp, hle, hsame, hhalf⟩ :=
        ih (a * 2) (isPow2_double a hp) (Or.inr hW) h2
      refine ⟨g, ?_, hgp, hle, fun h' => by omega, fun _ => ?_⟩
      · rw [growLoop, if_pos hgt, hmod]
        exact hg
      · by_cases hd : t ≤ a * 2
        · rw [hsame hd]
          omega
        · exact hhalf (by omega)
    · refine ⟨a, by rw [growLoop, if_neg hgt], hp, by omega, fun _ => rfl, fun h' => by omega⟩

theorem shrinkLoop_pow2 (t : Nat) :
    ∀ fuel a, IsPow2 a → t ≤ a → a < 2 ^ fuel →
      IsPow2 (shrinkLoop t fuel a) ∧ t ≤ shrinkLoop t fuel a ∧ shrinkLoop t fuel a / 2 ≤ t ∧
        shrinkLoop t fuel a ≤ a ∧ (shrinkLoop t fuel a = a ∨ t < shrinkLoop t fuel a) := by
  intro fuel
  induction fuel with
  | zero =>
    intro a hp _ hlt
    have := isPow2_pos a hp
    simp at hlt
    omega
  | succ f ih =>
    intro a hp hle hlt
    by_cases hhalf : t < a / 2
    · rw [shrinkLoop, if_pos hhalf]
      obtain ⟨hp2, _⟩ := isPow2_half a hp (by omega)
      have hlt2 : a / 2 < 2 ^ f := by
        rw [pow_succ] at hlt
        omega
      obtain ⟨i1, i2, i3, i4, i5⟩ := ih (a / 2) hp2 (by omega) hlt2
      refine ⟨i1, i2, i3, by omega, Or.inr ?_⟩
      rcases i5 with e | e
      · rw [e]; exact hhalf
      · exact e
    · rw [shrinkLoop, if_neg hhalf]
      exact ⟨hp, hle, by omega, le_refl a, Or.inl rfl⟩

theorem clampsz_eq_specTarget (b : smartstr_t) (r : Nat)
    (hcur : b.curlen + 1 < ULONG_RANGE) : clampsz b r = specTarget b r := by
  unfold clampsz specTarget SMARTSTR_INITSZ
  rw [Nat.mod_eq_of_lt hcur]
  simp only
  split_ifs <;> omega

theorem newalloc_ladder (b : smartstr_t) (r : Nat)
    (hp : IsPow2 b.allocsz) (h32 : 32 ≤ b.allocsz) (hmax : b.allocsz < ULONG_RANGE / 2)
    (hcur : b.curlen ≤ b.allocsz) (hr : r ≤ ULONG_RANGE / 2) :
    ∃ L, newalloc b r = some L ∧ IsPow2 L ∧ specTarget b r ≤ L ∧ L ≤ 2 * specTarget b r ∧
      (IsLeastPow2 (specTarget b r) L ∨
        (IsLeastPow2 (specTarget b r) (specTarget b r) ∧ L = 2 * specTarget b r ∧
          L ≤ b.allocsz)) := by
  have hW : ULONG_RANGE = 18446744073709551616 := rfl
  have hcl := clampsz_eq_specTarget b r (by omega)
  have ht32 : 32 ≤ specTarget b r := by unfold specTarget; omega
  have htW : specTarget b r ≤ ULONG_RANGE / 2 := by
    unfold specTarget
    split_ifs <;> omega
  have hfuel : specTarget b r ≤ b.allocsz * 2 ^ 64 := by
    have h1 : 1 ≤ b.allocsz := by omega
    have h2 := Nat.mul_le_mul_right (2 ^ 64) h1
    omega
  obtain ⟨g, hg, hgp, hle, hsame, hhalf⟩ :=
    growLoop_pow2 (specTarget b r) 64 b.allocsz hp (Or.inr htW) hfuel
  have hgW : g < 2 ^ 64 := by
    by_cases hc : specTarget b r ≤ b.allocsz
    · rw [hsame hc]
      have : (2 : Nat) ^ 64 = ULONG_RANGE := rfl
      omega
    · have := hhalf (by omega)
      have : (2 : Nat) ^ 64 = ULONG_RANGE := rfl
      omega
  obtain ⟨s1, s2, s3, s4, s5⟩ := shrinkLoop_pow2 (specTarget b r) 64 g hgp hle hgW
  refine ⟨shrinkLoop (specTarget b r) 64 g, ?_, s1, s2, ?_, ?_⟩
  · simp [newalloc, hcl, hg]
  · have := isPow2_half _ s1 (by omega)
    omega
  · by_cases hc : specTarget b r ≤ b.allocsz
    · have hgs := hsame hc
      by_cases he : shrinkLoop (specTarget b r) 64 g / 2 < specTarget b r
      · exact Or.inl (least_of_half_lt _ _ s1 s2 he)
      · obtain ⟨hp2, hd⟩ := isPow2_half _ s1 (by omega)
        have heq : shrinkLoop (specTarget b r) 64 g / 2 = specTarget b r := by omega
        rw [heq] at hp2 hd
        exact Or.inr ⟨least_self _ hp2, hd, by omega⟩
    · have hh := hhalf (by omega)
      exact Or.inl (least_of_half_lt _ _ s1 s2 (by omega))

theorem realloc_noop_iff (b : smartstr_t) (r L : Nat) (h : newalloc b r = some L) :
    (L = b.allocsz ↔ ∀ A, smartstr_realloc A b r = .ret (0, b)) := by
  unfold newalloc at h
  cases hg : growLoop (clampsz b r) 65 b.allocsz with
  | none => rw [hg] at h; simp at h
  | some g =>
    rw [hg] at h
    simp only [Option.map_some', Option.some.injEq] at h
    constructor
    · intro hL A
      unfold smartstr_realloc
      simp only [hg, h, hL, if_true]
    · intro hall
      by_contra hne
      have := hall noAlloc
      unfold smartstr_realloc at this
      simp only [hg, h, hne, if_false, noAlloc] at this
      injection this with this
      injection this with this _
      exact absurd this (by decide)

/-! ## The claims, continued -/

/-- C11 fails on the code for an absent first handle. With `calloc` succeeding
and `realloc` failing, `smartstr_cat` of a 40-byte buffer onto an absent handle
returns the error `-2` and leaves the handle present (a fresh empty buffer of
capacity 32), not absent as before the call; on a present first handle the
same call returns `-2` and the handle is the buffer it was. -/
theorem cat_failure_materializes_handle :
    smartstr_cat noRealloc (some none) (some buf40) = .ret (-2, some (some fresh)) ∧
    smartstr_ptr (some fresh) ≠ smartstr_ptr none ∧
    smartstr_cat noRealloc (some (some bufAbc)) (some buf40) = .ret (-2, some (some bufAbc)) :=
  ⟨rfl, by simp [smartstr_ptr], rfl⟩

/-- C12 fails on the code. With an absent handle and an allocator that
provides every block, `smartstr_addhead` with `hlen = 0` and `smartstr_cat` with
an absent second operand return 0 and leave the handle absent; `smartstr_adds`
with an absent or empty string, `smartstr_set` with an absent source,
`smartstr_addc` and `smartstr_addf` with an empty rendering leave a buffer of
capacity 32. -/
theorem addhead_cat_skip_auto_create :
    smartstr_addhead okAlloc (some none) (fun _ => 97) 0 = .ret (0, some none) ∧
    smartstr_cat okAlloc (some none) none = .ret (0, some none) ∧
    smartstr_adds okAlloc (some none) none = .ret (0, some (some fresh)) ∧
    smartstr_adds okAlloc (some none) (some []) = .ret (0, some (some fresh)) ∧
    smartstr_set okAlloc (some none) none = .ret (0, some (some fresh)) ∧
    (∃ b, smartstr_addc okAlloc (some none) 33 = .ret (0, some (some b)) ∧ b.allocsz = 32) ∧
    (∃ b, smartstr_addf 1 okAlloc (some none) (.text []) = .ret (0, some (some b)) ∧
      b.allocsz = 32) :=
  ⟨rfl, rfl, rfl, rfl, rfl, ⟨_, rfl, rfl⟩, ⟨_, rfl, rfl⟩⟩

/-- C13 fails on the code for an absent handle reference. `smartstr_free`
reads `*s` without checking `s`, so an absent reference is a null pointer
dereference; with a present reference it leaves the handle absent (whether it
was absent or a buffer), after which `smartstr_len` is 0 and `smartstr_ptr`
is absent. -/
theorem free_null_reference_faults :
    smartstr_free none = .fault ∧
    smartstr_free (some none) = .ret (some none) ∧
    (∀ b : smartstr_t, smartstr_free (some (some b)) = .ret (some none)) ∧
    smartstr_len none = 0 ∧ smartstr_ptr none = none :=
  ⟨rfl, rfl, fun _ => rfl, rfl, rfl⟩

/-- C14 fails on the code. On the buffer holding "abc" (`L = 3`, capacity 32,
sentinel in place) `smartstr_addhead` of 29 bytes returns 0 with length 32 and
the sentinel at index 32, while the capacity is still 32: `L + hlen < capacity`
is false. -/
theorem addhead_sentinel_at_capacity :
    bufAbc.curlen < bufAbc.allocsz ∧ bufAbc.s bufAbc.curlen = 0 ∧
    ∃ b1,
      smartstr_addhead okAlloc (some (some bufAbc)) (fun _ => 72) 29 = .ret (0, some (some b1)) ∧
      b1.curlen = 32 ∧ b1.s 32 = 0 ∧ b1.allocsz = 32 ∧ ¬ bufAbc.curlen + 29 < b1.allocsz :=
  ⟨by decide, rfl, _, rfl, rfl, rfl, rfl, by decide⟩

/-- C15 (formatted append). The primitive is either a rendering of a byte
string `r` of length `n` (it writes `min(n, avail - 1)` bytes and a terminator
and reports `n`) or a failure reporting a negative length. For every handle
(absent, or a buffer of valid sizes) with content `B`, an allocator that
provides every block and `|B| + n + 1 < 2^63`: with two or more attempts allowed
`smartstr_addf` returns 0 and leaves length `|B| + n` and payload
`B ++ r ++ [0]`; on a failure of the primitive it returns the format error `-4`
and leaves the length, the first length bytes and the sentinel as before. -/
theorem smartstr_addf_appends (fuel : Nat) (A : Allocator) (h : Handle) (r : List Nat)
    (junk : Nat → Nat)
    (hv : ∀ b, h = some b → Valid b)
    (hc : A.calloc_ok = true) (hr : A.realloc_fill ≠ none)
    (hsz : smartstr_len h + r.length + 1 < ULONG_RANGE / 2) :
    (∃ b', smartstr_addf (fuel + 2) A (some h) (.text r) = .ret (0, some (some b')) ∧
        b'.curlen = smartstr_len h + r.length ∧
        (List.range (b'.curlen + 1)).map b'.s = contentOf h ++ r ++ [0]) ∧
    (∃ b', smartstr_addf (fuel + 1) A (some h) (.failure junk) = .ret (-4, some (some b')) ∧
        b'.curlen = smartstr_len h ∧ content b' = contentOf h ∧ b'.s b'.curlen = 0) := by
  have key : ∀ b0 : smartstr_t, ensure A h = some b0 → Valid b0 →
      b0.curlen = smartstr_len h → content b0 = contentOf h →
      (∃ b', smartstr_addf (fuel + 2) A (some h) (.text r) = .ret (0, some (some b')) ∧
        b'.curlen = smartstr_len h + r.length ∧
        (List.range (b'.curlen + 1)).map b'.s = contentOf h ++ r ++ [0]) ∧
      (∃ b', smartstr_addf (fuel + 1) A (some h) (.failure junk) = .ret (-4, some (some b')) ∧
        b'.curlen = smartstr_len h ∧ content b' = contentOf h ∧ b'.s b'.curlen = 0) := by
    intro b0 he hv0 hlen hcont
    constructor
    · obtain ⟨b', hrun, h1, h2⟩ := addfLoop_text_ok A fuel b0 r hv0 hr (by rw [hlen]; exact hsz)
      refine ⟨b', ?_, by rw [h1, hlen], by rw [h2, hcont]⟩
      simp only [smartstr_addf, he, hrun]
    · obtain ⟨_, tc, ts, tkeep⟩ := trimmed_keeps b0 (.failure junk)
      refine ⟨trimmed b0 (.failure junk), ?_, by rw [tc, hlen], ?_, by rw [tc]; exact ts⟩
      · simp only [smartstr_addf, he, addfLoop_failure A fuel b0 junk hv0]
      · rw [← hcont, content, content, tc]
        exact map_range_congr tkeep
  cases h with
  | some b => exact key b rfl (hv b rfl) rfl rfl
  | none =>
    exact key fresh (ensure_none_ok A hc) fresh_valid rfl (by simp [content, contentOf, fresh])

/-- Witness of C15: forty bytes '7' formatted onto the buffer holding "abc". -/
theorem smartstr_addf_appends_witness :
    (∃ b', smartstr_addf 2 okAlloc (some (some bufAbc)) (.text (List.replicate 40 55))
          = .ret (0, some (some b')) ∧
        b'.curlen = smartstr_len (some bufAbc) + (List.replicate 40 55).length ∧
        (List.range (b'.curlen + 1)).map b'.s
          = contentOf (some bufAbc) ++ List.replicate 40 55 ++ [0]) ∧
    (∃ b', smartstr_addf 1 okAlloc (some (some bufAbc)) (.failure (fun _ => 7))
          = .ret (-4, some (some b')) ∧
        b'.curlen = smartstr_len (some bufAbc) ∧ content b' = contentOf (some bufAbc) ∧
        b'.s b'.curlen = 0) :=
  smartstr_addf_appends 0 okAlloc (some bufAbc) (List.replicate 40 55) (fun _ => 7)
    (fun b hb => by cases hb; unfold Valid; decide)
    rfl (by simp [okAlloc]) (by decide)

/-- C16 (one retry suffices). For every buffer of valid sizes and every
rendering of `n` bytes that does not fit on the first attempt
(`n ≥ capacity - length`, with `length + n + 1 < 2^63`): the resize of the
trimmed buffer to `length + n + 1` returns. When it succeeds, `n` is below the
free space of the resized buffer, one attempt alone does not finish, and with
two or more attempts allowed `smartstr_addf` returns 0 with the rendering
written into the resized buffer, whose capacity is unchanged (no further
resize). When it fails, `smartstr_addf` returns `-1` and length, capacity and
live content are as before. -/
theorem smartstr_addf_one_retry (fuel : Nat) (A : Allocator) (b : smartstr_t) (r : List Nat)
    (hv : Valid b) (hnofit : b.allocsz - b.curlen ≤ r.length)
    (hsz : b.curlen + r.length + 1 < ULONG_RANGE / 2) :
    ∃ c b2, smartstr_realloc A (trimmed b (.text r)) (b.curlen + r.length + 1) = .ret (c, b2) ∧
      (A.realloc_fill ≠ none → c = 0) ∧
      (c = 0 → b2.curlen = b.curlen ∧ r.length < b2.allocsz - b2.curlen ∧
        smartstr_addf 1 A (some (some b)) (.text r) = .hang ∧
        smartstr_addf (fuel + 2) A (some (some b)) (.text r) =
          .ret (0, some (some
            { allocsz := b2.allocsz
              curlen := b.curlen + r.length
              s := store (memcpy b2.s b.curlen (fun i => r.getD i 0) r.length)
                     (b.curlen + r.length) 0 }))) ∧
      (c ≠ 0 → A.realloc_fill = none ∧
        ∃ b', smartstr_addf (fuel + 1) A (some (some b)) (.text r) = .ret (-1, some (some b')) ∧
          b'.curlen = b.curlen ∧ b'.allocsz = b.allocsz ∧ content b' = content b ∧
          b'.s b'.curlen = 0) := by
  obtain ⟨c, b2, hre, hcode, hok, hpost⟩ := realloc_trimmed A b r hv hsz
  refine ⟨c, b2, hre, hok, fun h0 => ?_, fun hne => ?_⟩
  · subst h0
    obtain ⟨hv2, hcur2, hfit2, _⟩ := hpost rfl
    have h1 := addfLoop_retry A 0 b r hv hnofit hsz
    have h2 := addfLoop_retry A (fuel + 1) b r hv hnofit hsz
    rw [hre] at h1 h2
    simp only [if_true] at h1 h2
    rw [addfLoop_fit A fuel b2 r hv2 hfit2, hcur2] at h2
    refine ⟨hcur2, hfit2, ?_, ?_⟩
    · simp only [smartstr_addf, ensure_some, h1]
      rfl
    · simp only [smartstr_addf, ensure_some, h2]
  · rcases hcode with h0 | ⟨hm, hnone, hb2⟩
    · exact absurd h0 hne
    · subst hm
      subst hb2
      obtain ⟨ta, tc, ts, tkeep⟩ := trimmed_keeps b (.text r)
      have h1 := addfLoop_retry A fuel b r hv hnofit hsz
      rw [hre] at h1
      simp only [show ¬ ((-1 : Int) = 0) by decide, if_false] at h1
      refine ⟨hnone, trimmed b (.text r), ?_, tc, ta, ?_, by rw [tc]; exact ts⟩
      · simp only [smartstr_addf, ensure_some, h1]
      · rw [content, content, tc]
        exact map_range_congr tkeep

/-- Witness of C16: forty bytes '7' formatted onto the buffer holding "abc",
which has 29 free bytes. -/
theorem smartstr_addf_one_retry_witness :
    ∃ c b2, smartstr_realloc okAlloc (trimmed bufAbc (.text (List.replicate 40 55)))
        (bufAbc.curlen + (List.replicate 40 55).length + 1) = .ret (c, b2) ∧
      (okAlloc.realloc_fill ≠ none → c = 0) ∧
      (c = 0 → b2.curlen = bufAbc.curlen ∧
        (List.replicate 40 55).length < b2.allocsz - b2.curlen ∧
        smartstr_addf 1 okAlloc (some (some bufAbc)) (.text (List.replicate 40 55)) = .hang ∧
        smartstr_addf 2 okAlloc (some (some bufAbc)) (.text (List.replicate 40 55)) =
          .ret (0, some (some
            { allocsz := b2.allocsz
              curlen := bufAbc.curlen + (List.replicate 40 55).length
              s := store (memcpy b2.s bufAbc.curlen
                      (fun i => (List.replicate 40 55).getD i 0) (List.replicate 40 55).length)
                     (bufAbc.curlen + (List.replicate 40 55).length) 0 }))) ∧
      (c ≠ 0 → okAlloc.realloc_fill = none ∧
        ∃ b', smartstr_addf 1 okAlloc (some (some bufAbc)) (.text (List.replicate 40 55))
            = .ret (-1, some (some b')) ∧
          b'.curlen = bufAbc.curlen ∧ b'.allocsz = bufAbc.allocsz ∧
          content b' = content bufAbc ∧ b'.s b'.curlen = 0) :=
  smartstr_addf_one_retry 0 okAlloc bufAbc (List.replicate 40 55)
    (by unfold Valid; decide) (by decide) (by decide)

/-- C17 fails on the code as stated. From an absent handle, `smartstr_adds` of
100 bytes and then `smartstr_set` to the one-byte string "x" both return 0 and
leave length 1 with capacity 101 (the resize is clamped to the old length), while
the smallest power of two `≥ max(32, length + 1)` is 32: the capacity exceeds
twice it. Likewise `smartstr_adds` of 64 bytes and `smartstr_truncate` to 0
leave length 0 with capacity 65. -/
theorem shortening_keeps_capacity :
    (∃ b1 b2,
      smartstr_adds okAlloc (some none) (some (List.replicate 100 97))
        = .ret (0, some (some b1)) ∧
      smartstr_set okAlloc (some (some b1)) (some [120]) = .ret (0, some (some b2)) ∧
      b2.curlen = 1 ∧ b2.allocsz = 101 ∧
      IsLeastPow2 (max 32 (b2.curlen + 1)) 32 ∧ ¬ b2.allocsz ≤ 2 * 32) ∧
    (∃ b3 b4,
      smartstr_adds okAlloc (some none) (some (List.replicate 64 97))
        = .ret (0, some (some b3)) ∧
      smartstr_truncate okAlloc (some (some b3)) 0 = .ret (some (some b4)) ∧
      b4.curlen = 0 ∧ b4.allocsz = 65 ∧
      IsLeastPow2 (max 32 (b4.curlen + 1)) 32 ∧ ¬ b4.allocsz ≤ 2 * 32) :=
  ⟨⟨_, _, rfl, rfl, rfl, rfl, least_self 32 ⟨5, rfl⟩, by decide⟩,
    ⟨_, _, rfl, rfl, rfl, rfl, least_self 32 ⟨5, rfl⟩, by decide⟩⟩

/-- C17 as amended. Every buffer reached from a fresh empty buffer by
successful public operations that do not shorten the content (`Grown`) has
capacity at most `max(32, length + 1)`, hence at most twice the smallest power
of two that is `≥ max(32, length + 1)`. -/
theorem grown_capacity_bound (b : smartstr_t) (hg : Grown b) (p : Nat)
    (hp : IsLeastPow2 (max 32 (b.curlen + 1)) p) :
    b.allocsz ≤ max 32 (b.curlen + 1) ∧ b.allocsz ≤ 2 * p := by
  obtain ⟨_, _, _, ht⟩ := grown_tight b hg
  obtain ⟨_, hle, _⟩ := hp
  exact ⟨ht, by omega⟩

/-- Witness of the amended C17: a fresh buffer after `smartstr_adds` of 40 bytes
and `smartstr_addc`. -/
theorem grown_capacity_bound_witness :
    ∃ b1 b2,
      smartstr_adds okAlloc (some (some fresh)) (some (List.replicate 40 97))
        = .ret (0, some (some b1)) ∧
      smartstr_addc okAlloc (some (some b1)) 33 = .ret (0, some (some b2)) ∧
      b2.allocsz ≤ max 32 (b2.curlen + 1) ∧ b2.allocsz ≤ 2 * 64 :=
  ⟨_, _, rfl, rfl,
    grown_capacity_bound _
      (Grown.addc okAlloc _ _ 33
        (Grown.adds okAlloc fresh _ (some (List.replicate 40 97)) Grown.fresh (by decide) rfl)
        (by decide) rfl)
      64 (least_of_half_lt _ 64 ⟨6, rfl⟩ (by decide) (by decide))⟩

/-- C18 fails on the code. From an absent handle, `smartstr_adds` of 65 bytes
and `smartstr_set` to 32 bytes give a buffer with length 32 and capacity 66. On
it a request of exactly 32 bytes (the one `smartstr_set` sends to replace the
32 bytes by 31) is not clamped: `smartstr_realloc` returns 0 and leaves
capacity 32, which is not `≥ length + 1`. -/
theorem realloc_request_equal_length :
    ∃ b1 b2 b3,
      smartstr_adds okAlloc (some none) (some (List.replicate 65 121))
        = .ret (0, some (some b1)) ∧
      smartstr_set okAlloc (some (some b1)) (some (List.replicate 32 121))
        = .ret (0, some (some b2)) ∧
      b2.curlen = 32 ∧ b2.allocsz = 66 ∧
      (strlen (List.replicate 31 122) + 1) % ULONG_RANGE = 32 ∧
      smartstr_realloc okAlloc b2 32 = .ret (0, b3) ∧
      b3.curlen = 32 ∧ b3.allocsz = 32 ∧ ¬ b3.curlen + 1 ≤ b3.allocsz :=
  ⟨_, _, _, rfl, rfl, rfl, rfl, by decide, rfl, rfl, rfl, by decide⟩

/-- C19 fails on the code as stated. On an empty buffer of capacity 64 a
request of 32 bytes has target 32, itself the smallest power of two `≥ 32`, yet
the call is a no-op for every allocator and the capacity stays 64: the second
loop halves only while the half is still above the target. On a fresh buffer a
request of 41 bytes leaves capacity 41, while the smallest power of two `≥ 41`
is 64. -/
theorem ladder_not_least_power :
    IsPow2 empty64.allocsz ∧ specTarget empty64 32 = 32 ∧ IsLeastPow2 32 32 ∧
    (∀ A, smartstr_realloc A empty64 32 = .ret (0, empty64)) ∧ empty64.allocsz ≠ 32 ∧
    (∃ b1, smartstr_realloc okAlloc fresh 41 = .ret (0, b1) ∧ b1.allocsz = 41 ∧
      specTarget fresh 41 = 41 ∧ IsLeastPow2 41 64) :=
  ⟨⟨6, rfl⟩, rfl, least_self 32 ⟨5, rfl⟩, fun _ => rfl, by decide,
    _, rfl, rfl, rfl, least_of_half_lt 41 64 ⟨6, rfl⟩ (by decide) (by decide)⟩

/-- C19 as amended. For every buffer whose capacity is a power of two with
`32 ≤ capacity < 2^63` and `length ≤ capacity`, and every request `r ≤ 2^63`,
with `target = max(32, r clamped up to length + 1 when r < length)`: the two
loops of `smartstr_realloc` end with a power of two `L`,
`target ≤ L ≤ 2 × target`, which is the smallest power of two `≥ target`, or
twice the target when the target is itself a power of two and the capacity is
at least twice it; and the call is a no-op (returns 0 and the same buffer for
every allocator) exactly when `L` equals the current capacity. -/
theorem realloc_ladder (b : smartstr_t) (r : Nat)
    (hp : IsPow2 b.allocsz) (h32 : 32 ≤ b.allocsz) (hmax : b.allocsz < ULONG_RANGE / 2)
    (hcur : b.curlen ≤ b.allocsz) (hr : r ≤ ULONG_RANGE / 2) :
    ∃ L, newalloc b r = some L ∧ IsPow2 L ∧ specTarget b r ≤ L ∧ L ≤ 2 * specTarget b r ∧
      (IsLeastPow2 (specTarget b r) L ∨
        (IsLeastPow2 (specTarget b r) (specTarget b r) ∧ L = 2 * specTarget b r ∧
          L ≤ b.allocsz)) ∧
      (L = b.allocsz ↔ ∀ A, smartstr_realloc A b r = .ret (0, b)) := by
  obtain ⟨L, hL, h1, h2, h3, h4⟩ := newalloc_ladder b r hp h32 hmax hcur hr
  exact ⟨L, hL, h1, h2, h3, h4, realloc_noop_iff b r L hL⟩

/-- Witness of the amended C19: a request of 32 bytes on the empty buffer of
capacity 64. -/
theorem realloc_ladder_witness :
    ∃ L, newalloc empty64 32 = some L ∧ IsPow2 L ∧ specTarget empty64 32 ≤ L ∧
      L ≤ 2 * specTarget empty64 32 ∧
      (IsLeastPow2 (specTarget empty64 32) L ∨
        (IsLeastPow2 (specTarget empty64 32) (specTarget empty64 32) ∧
          L = 2 * specTarget empty64 32 ∧ L ≤ empty64.allocsz)) ∧
      (L = empty64.allocsz ↔ ∀ A, smartstr_realloc A empty64 32 = .ret (0, empty64)) :=
  realloc_ladder empty64 32 ⟨6, rfl⟩ (by decide) (by decide) (by decide) (by decide)

/-- C20 fails on the code as stated. On a fresh buffer (capacity 32) a request
of `2^63 + 1` bytes makes the doubling loop wrap around to zero: the loop never
exits, whatever the number of rounds, and `smartstr_realloc` does not
terminate. -/
theorem realloc_huge_request_hangs :
    32 ≤ fresh.allocsz ∧
    smartstr_realloc okAlloc fresh 9223372036854775809 = .hang ∧
    ∀ fuel, growLoop (clampsz fresh 9223372036854775809) fuel fresh.allocsz = none :=
  ⟨by decide, rfl, growLoop_hangs _ _ (by decide) rfl⟩

/-- C20 as amended. For every buffer with `length ≤ capacity`,
`32 ≤ capacity < 2^63` and every request `r ≤ 2^63`, `smartstr_realloc` returns.
It returns 0 whenever the allocator provides the block; on 0 the length, the
first length bytes of the payload and the byte at index length are unchanged
and `capacity ≥ max(r, 32)`; otherwise it returns `-1`, `realloc` has failed
and the buffer (capacity, length, payload) is the one before the call. -/
theorem smartstr_realloc_post (A : Allocator) (b : smartstr_t) (r : Nat)
    (hcur : b.curlen ≤ b.allocsz) (h32 : 32 ≤ b.allocsz)
    (hmax : b.allocsz < ULONG_RANGE / 2) (hr : r ≤ ULONG_RANGE / 2) :
    ∃ c b', smartstr_realloc A b r = .ret (c, b') ∧
      (A.realloc_fill ≠ none → c = 0) ∧
      (c = 0 → b'.curlen = b.curlen ∧ (∀ i, i ≤ b.curlen → b'.s i = b.s i) ∧
        max r 32 ≤ b'.allocsz) ∧
      (c ≠ 0 → c = -1 ∧ A.realloc_fill = none ∧ b' = b) := by
  have hW : ULONG_RANGE = 18446744073709551616 := rfl
  have hcl := clampsz_eq_specTarget b r (by omega)
  have hle : clampsz b r ≤ ULONG_RANGE / 2 := by
    rw [hcl]
    unfold specTarget
    split_ifs <;> omega
  have hge : max r 32 ≤ clampsz b r ∧ b.curlen ≤ clampsz b r := by
    rw [hcl]
    unfold specTarget
    split_ifs <;> omega
  obtain ⟨c, b', hrun, hcode, hok, hpost⟩ :=
    smartstr_realloc_spec A b r (by omega) (Or.inr hle)
  refine ⟨c, b', hrun, hok, fun h0 => ?_, fun hne => ?_⟩
  · obtain ⟨hcap, hc1, _, hkeep⟩ := hpost h0
    exact ⟨hc1, fun i hi => hkeep i (by omega), by omega⟩
  · rcases hcode with h0 | h1
    · exact absurd h0 hne
    · exact h1

/-- Witness of the amended C20: a request of 41 bytes on the buffer holding
"abc". -/
theorem smartstr_realloc_post_witness :
    ∃ c b', smartstr_realloc okAlloc bufAbc 41 = .ret (c, b') ∧
      (okAlloc.realloc_fill ≠ none → c = 0) ∧
      (c = 0 → b'.curlen = bufAbc.curlen ∧ (∀ i, i ≤ bufAbc.curlen → b'.s i = bufAbc.s i) ∧
        max 41 32 ≤ b'.allocsz) ∧
      (c ≠ 0 → c = -1 ∧ okAlloc.realloc_fill = none ∧ b' = bufAbc) :=
  smartstr_realloc_post okAlloc bufAbc 41 (by decide) (by decide) (by decide) (by decide)

end Smartstr
